import Mathlib

/-!
Shallow embedding of the `open_math` repository (files `src/fast_solver.c` and
`src/fast_core.c`) and proofs about it.

Machine integers (`u64`, `u128`) are modelled as `Nat`, with an explicit
reduction `% 2^64` or `% 2^128` at every operation whose C result can wrap for
some `u64` input (the `u64` divisor-buffer stores, the running prime power `pe`,
the wide subtraction forming `A`, the square `D = nx·nx`, the wide sums
`d1 + nx` and `d2 + nx`, and the `u64` sums `n + 1` and `n + 3` in
`solve_erdos_straus`).  Operations that cannot wrap for any `u64` input — such
as the `u128` product of two `u64` values — are kept exact.  A C operation whose
behaviour is undefined (`%` or `/` by zero) is rendered by the `Nat` convention
`a % 0 = a`, `a / 0 = 0`; the out-of-bounds write of `add_reverse` once the
working number reaches `MAX_DIGITS` digits is rendered as the `Option` failure
value `none`.  Exact-arithmetic reference versions of the divisor-expansion and
search loops (suffix `R`) are related to the faithful definitions by bridging
lemmas on input ranges where no wrap can occur.  C loops are modelled as
structurally recursive functions on an explicit iteration budget (fuel) equal to
the loop's iteration bound, so that every definition evaluates in the kernel.
-/

/-! ## Embedding of `fast_core.c` (reverse-and-add palindrome counter) -/

/-- Two-pointer scan of `is_palindrome` in `fast_core.c`: indices `i` starting at the
left and `j` at the right move inwards while `i < j`, comparing digits. -/
def palinGo (d : List Nat) : Nat → Nat → Nat → Bool
  | 0, _, _ => true
  | fuel+1, i, j =>
      if i < j then
        if d.getD i 0 = d.getD j 0 then palinGo d fuel (i+1) (j-1) else false
      else true

/-- Palindrome check on a digit array of length `len`, as `is_palindrome(d, len)`. -/
def is_palindrome (d : List Nat) : Bool :=
  palinGo d d.length 0 (d.length - 1)

/-- Carry propagation of `add_reverse`: the input list is least-significant-first
pairwise sums; each step emits `(s + c) % 10` and carries `(s + c) / 10`; a final
nonzero carry becomes one extra (most significant) digit. -/
def addCarryGo : List Nat → Nat → List Nat
  | [], c => if c = 0 then [] else [c]
  | s :: rest, c => (s + c) % 10 :: addCarryGo rest ((s + c) / 10)

/-- The `add_reverse` step of `fast_core.c`: add a most-significant-first digit array
to its reverse.  Position `k` from the least significant end sums `d[len-1-k]` and
`d[k]`, i.e. the pointwise sum `zipWith (+) d.reverse d`; the result has length
`len` or `len + 1`. -/
def add_reverse (d : List Nat) : List Nat :=
  (addCarryGo (List.zipWith (· + ·) d.reverse d) 0).reverse

/-- Main loop of `reverse_and_add_count`: at iteration `iter` perform one
reverse-and-add step and return `iter` if the result is a palindrome; give up with
`-1` once the iteration budget is exhausted.  The C buffers `d1`, `d2` hold
`MAX_DIGITS = 4096` bytes and `add_reverse` writes up to index `len`, so an
iteration entered with `len ≥ 4096` writes past the arrays — undefined behaviour,
rendered here as the failure value `none`. -/
def raaGo (d : List Nat) : Nat → Nat → Option Int
  | 0, _ => some (-1)
  | fuel+1, iter =>
      if 4096 ≤ d.length then none
      else
        let next := add_reverse d
        if is_palindrome next then some (iter : Int) else raaGo next fuel (iter + 1)

/-- Embedding of `reverse_and_add_count(num_str, max_iter, ...)` from `fast_core.c`,
acting on the decimal digit list of the input string (the output-buffer parameters do
not affect the return value and are omitted).  Returns `-2` when the input has
`MAX_DIGITS = 4096` or more digits; `none` stands for the out-of-bounds write
that C performs when the working number grows to `4096` digits mid-loop. -/
def reverse_and_add_count (s : List Nat) (max_iter : Nat) : Option Int :=
  if 4096 ≤ s.length then some (-2) else raaGo s max_iter 1

/-! ## Embedding of `fast_solver.c`: data model -/

/-- Divisor-buffer capacity `MAX_DIVS` of `fast_solver.c`. -/
def MAX_DIVS : Nat := 16384

/-- The solver result.  The C struct stores each of `a`, `b`, `c` as a `(hi, lo)`
pair of `u64` words encoding one 128-bit value; here each is kept as a single
`Nat`, and the word split is recovered by `toSlot` below. -/
structure Solution where
  a : Nat
  b : Nat
  c : Nat
  found : Bool
deriving DecidableEq, Repr

/-- The zero-initialised (`memset`) solution with `found = 0`. -/
def notFound : Solution := ⟨0, 0, 0, false⟩

/-- Embedding of `set_sol`: sort the three values with the three-swap network of the
C code and mark the solution found. -/
def set_sol (a0 b0 c0 : Nat) : Solution :=
  let ab := if b0 < a0 then (b0, a0) else (a0, b0)
  let bc := if c0 < ab.2 then (c0, ab.2) else (ab.2, c0)
  let ab2 := if bc.1 < ab.1 then (bc.1, ab.1) else (ab.1, bc.1)
  ⟨ab2.1, ab2.2, bc.2, true⟩

/-! ## Embedding of `verify128` -/

/-- The four fixed verification primes of `verify128`. -/
def mods : List Nat := [1000000007, 1000000009, 998244353, 999999937]

/-- One iteration of the `verify128` loop: reduce the inputs modulo `m` and compare
`4*a*b*c` with `n*(b*c + a*c + a*b)`, reducing after every product exactly as the C
code does. -/
def verifyMod (n a b c m : Nat) : Bool :=
  let an := a % m
  let bn := b % m
  let cn := c % m
  let nn := n % m
  let lhs := ((4 * an % m) * bn % m) * cn % m
  let bc := bn * cn % m
  let ac := an * cn % m
  let ab := an * bn % m
  let sum := (bc + ac + ab) % m
  let rhs := nn * sum % m
  lhs == rhs

/-- Embedding of `verify128`: the candidate passes iff the congruence holds for each
of the four primes. -/
def verify128 (n a b c : Nat) : Bool :=
  mods.all (fun m => verifyMod n a b c m)

/-! ## Embedding of `get_divisors_p2x2` -/

/-- Inner `while (temp % d == 0)` loop of the trial division in
`get_divisors_p2x2`: count how often `d` divides `temp` and divide it out.  The
fuel is an upper bound on the number of divisions; callers pass `temp` itself. -/
def divOutGo (d : Nat) : Nat → Nat → Nat × Nat
  | 0, temp => (0, temp)
  | fuel+1, temp =>
      if temp % d = 0 then
        let r := divOutGo d fuel (temp / d)
        (r.1 + 1, r.2)
      else (0, temp)

/-- Trial-division loop of `get_divisors_p2x2` (`for (d = 2; d*d <= temp && nfactors
< 63; d++)`): returns the recorded `(prime, exponent)` list and the final residual
`temp`.  `nf` is the running `nfactors` count; the fuel bounds the number of `d`
increments and callers pass the initial `temp`. -/
def trialDivGo : Nat → Nat → Nat → Nat → List (Nat × Nat) × Nat
  | 0, _, _, temp => ([], temp)
  | fuel+1, nf, d, temp =>
      if d * d ≤ temp ∧ nf < 63 then
        if temp % d = 0 then
          let r := divOutGo d temp temp
          let rest := trialDivGo fuel (nf + 1) (d + 1) r.2
          ((d, r.1) :: rest.1, rest.2)
        else
          trialDivGo fuel nf (d + 1) temp
      else ([], temp)

/-- The factorization step of `get_divisors_p2x2` (lines 80–96 of `fast_solver.c`):
trial division of `x` up to its square root followed by the residual-prime check
`if (temp > 1 && nfactors < 63)`. -/
def factorize (x : Nat) : List (Nat × Nat) :=
  let r := trialDivGo x 0 2 x
  if 1 < r.2 ∧ r.1.length < 63 then r.1 ++ [(r.2, 1)] else r.1

/-- Combination step of `get_divisors_p2x2`: double every exponent of `x`'s
factorization (forming `x²`), add `2` to the exponent of `p` if `p` occurs among
`x`'s primes, and otherwise append `(p, 2)`. -/
def allFactors (p : Nat) (facs : List (Nat × Nat)) : List (Nat × Nat) :=
  let doubled := facs.map (fun pe =>
    if pe.1 = p then (pe.1, 2 * pe.2 + 2) else (pe.1, 2 * pe.2))
  if facs.any (fun pe => pe.1 = p) then doubled else doubled ++ [(p, 2)]

/-- Innermost loop of the divisor expansion (`for (j = 0; j < prev_count && count <
MAX_DIVS; j++)`): append `divs[j] * pe` for each stable entry of `prev`, stopping at
the `MAX_DIVS` cap.  The buffer entries are `u64`, so each stored product is
reduced `% 2^64`. -/
def innerJ (prev : List Nat) (pe : Nat) (acc : List Nat) : List Nat :=
  acc ++ (prev.map (fun u => u * pe % 2 ^ 64)).take (MAX_DIVS - acc.length)

/-- Middle loop of the divisor expansion (`for (e = 0; e < exp && count < MAX_DIVS;
e++)`): multiply the running `u64` prime power `pe` by `pr` (`pe *= prime`,
wrapping `% 2^64`) and append the scaled copy of the stable prefix `prev`. -/
def middleE (prev : List Nat) (pr : Nat) : Nat → Nat → List Nat → List Nat
  | 0, _, acc => acc
  | e+1, pe, acc =>
      if acc.length < MAX_DIVS then
        middleE prev pr e (pe * pr % 2 ^ 64) (innerJ prev (pe * pr % 2 ^ 64) acc)
      else acc

/-- Outer loop of the divisor expansion (`for (i = 0; i < nall && count < MAX_DIVS;
i++)`), starting from the seed list `[1]`. -/
def outerLoop : List (Nat × Nat) → List Nat → List Nat
  | [], divs => divs
  | f :: rest, divs =>
      if divs.length < MAX_DIVS then outerLoop rest (middleE divs f.1 f.2 1 divs)
      else divs

/-- Embedding of `get_divisors_p2x2(p, x, divs)`: the produced `u64` divisor-buffer
list in construction order. -/
def get_divisors_p2x2 (p x : Nat) : List Nat :=
  outerLoop (allFactors p (factorize x)) [1]

/-- Exact-arithmetic reference version of `innerJ` (no `u64` reduction on the
stored products); equal to `innerJ` whenever every product fits in 64 bits. -/
def innerJR (prev : List Nat) (pe : Nat) (acc : List Nat) : List Nat :=
  acc ++ (prev.map (fun u => u * pe)).take (MAX_DIVS - acc.length)

/-- Exact-arithmetic reference version of `middleE`. -/
def middleER (prev : List Nat) (pr : Nat) : Nat → Nat → List Nat → List Nat
  | 0, _, acc => acc
  | e+1, pe, acc =>
      if acc.length < MAX_DIVS then
        middleER prev pr e (pe * pr) (innerJR prev (pe * pr) acc)
      else acc

/-- Exact-arithmetic reference version of `outerLoop`. -/
def outerLoopR : List (Nat × Nat) → List Nat → List Nat
  | [], divs => divs
  | f :: rest, divs =>
      if divs.length < MAX_DIVS then outerLoopR rest (middleER divs f.1 f.2 1 divs)
      else divs

/-- Exact-arithmetic reference version of `get_divisors_p2x2`; the bridging lemma
`get_divisors_eq_R` below shows it agrees with the faithful embedding whenever
`p²·x² < 2^64`. -/
def get_divisors_p2x2R (p x : Nat) : List Nat :=
  outerLoopR (allFactors p (factorize x)) [1]

/-! ## Embedding of `solve_erdos_straus` -/

/-- The ideal lower end `(n + 3) / 4` of the search window, as described by the
spec.  The C code computes the sum `n + 3` in `u64` (see `solve_erdos_straus`
below), which wraps for `n ≥ 2^64 - 3`; this definition keeps the exact value. -/
def x_min (n : Nat) : Nat := (n + 3) / 4

/-- Upper end `x_max = x_min + 50000` of the search window. -/
def x_max (n : Nat) : Nat := x_min n + 50000

/-- Per-`x` divisor scan of the search loop (lines 181–201 of `fast_solver.c`):
try each divisor `d1` in construction order, skipping it unless `d1 ≤ nx`,
`d1 % A64 = target`, and `(d2 + nx) % A = 0` with `d2 = D / d1`; derive
`y = (d1 + nx) / A` and `z = (d2 + nx) / A`, reorder them, require `x ≤ y`, and
accept the first candidate passing `verify128`.  `A` is the full `u128` value and
`A64` its `u64` truncation, exactly as the C code mixes them; the `u128` sums
`d1 + nx` and `d2 + nx` wrap `% 2^128`. -/
def tryDivs (n x A A64 nx D target : Nat) : List Nat → Option Solution
  | [] => none
  | d1 :: rest =>
      if nx < d1 then tryDivs n x A A64 nx D target rest
      else if d1 % A64 ≠ target then tryDivs n x A A64 nx D target rest
      else
        let d2 := D / d1
        if (d2 + nx) % 2 ^ 128 % A ≠ 0 then tryDivs n x A A64 nx D target rest
        else
          let y0 := (d1 + nx) % 2 ^ 128 / A
          let z0 := (d2 + nx) % 2 ^ 128 / A
          if y0 < x then tryDivs n x A A64 nx D target rest
          else
            let yz := if z0 < y0 then (z0, y0) else (y0, z0)
            if yz.1 < x then tryDivs n x A A64 nx D target rest
            else if verify128 n x yz.1 yz.2 then some (set_sol x yz.1 yz.2)
            else tryDivs n x A A64 nx D target rest

/-- The `for (x = x_min; x <= x_max; x++)` search loop for `n ≡ 1 (mod 4)`: the fuel
is the remaining number of window positions (initially `50001`).
`A = (u128)4*x - n` is the two's-complement `u128` difference
`(4x + 2^128 - n) % 2^128`, with the `A == 0` skip branch; `nx = (u128)n * x` is
exact (a product of two `u64` values cannot wrap in `u128`); `D = nx * nx` wraps
`% 2^128`; `A64 = (u64)A` and
`target = (u64)((A64 - (u64)(nx % A)) % A64)` use wrapping `u64` subtraction.
The loop returns the first accepted candidate or the zero solution when the
window is exhausted. -/
def searchLoop (n : Nat) : Nat → Nat → Solution
  | _, 0 => notFound
  | x, fuel+1 =>
      let A := (4 * x + 2 ^ 128 - n) % 2 ^ 128
      if A = 0 then searchLoop n (x + 1) fuel
      else
        let nx := n * x
        let D := nx * nx % 2 ^ 128
        let divs := get_divisors_p2x2 n x
        let A64 := A % 2 ^ 64
        let target := (A64 + 2 ^ 64 - nx % A % 2 ^ 64) % 2 ^ 64 % A64
        match tryDivs n x A A64 nx D target divs with
        | some s => s
        | none => searchLoop n (x + 1) fuel

/-- Exact-arithmetic reference version of `tryDivs`: a single exact `A`, exact
`u128` sums. -/
def tryDivsR (n x A nx D target : Nat) : List Nat → Option Solution
  | [] => none
  | d1 :: rest =>
      if nx < d1 then tryDivsR n x A nx D target rest
      else if d1 % A ≠ target then tryDivsR n x A nx D target rest
      else
        let d2 := D / d1
        if (d2 + nx) % A ≠ 0 then tryDivsR n x A nx D target rest
        else
          let y0 := (d1 + nx) / A
          let z0 := (d2 + nx) / A
          if y0 < x then tryDivsR n x A nx D target rest
          else
            let yz := if z0 < y0 then (z0, y0) else (y0, z0)
            if yz.1 < x then tryDivsR n x A nx D target rest
            else if verify128 n x yz.1 yz.2 then some (set_sol x yz.1 yz.2)
            else tryDivsR n x A nx D target rest

/-- Exact-arithmetic reference version of `searchLoop`: `A = 4x - n` exactly and
all wide arithmetic exact; the bridging lemma `searchLoop_eq_R` below shows it
agrees with the faithful loop on a wrap-free range of `n`. -/
def searchLoopR (n : Nat) : Nat → Nat → Solution
  | _, 0 => notFound
  | x, fuel+1 =>
      let A := 4 * x - n
      if A = 0 then searchLoopR n (x + 1) fuel
      else
        let nx := n * x
        let D := nx * nx
        let divs := get_divisors_p2x2R n x
        let target := (A - nx % A) % A
        match tryDivsR n x A nx D target divs with
        | some s => s
        | none => searchLoopR n (x + 1) fuel

/-- Embedding of `solve_erdos_straus(n)`: degenerate inputs, the four tabulated
cases, the even and `n ≡ 3 (mod 4)` closed forms, and the divisor-based search for
`n ≡ 1 (mod 4)`.  The sums `n + 1` (forming `q` in the `n ≡ 3 (mod 4)` branch)
and `n + 3` (forming the window start `x_min`) are computed in `u64` and wrap
`% 2^64`; the products `(u128)n * q` and `2 * m` are exact, since they cannot
exceed `2^128` for `u64` inputs. -/
def solve_erdos_straus (n : Nat) : Solution :=
  if n ≤ 1 then notFound
  else if n = 2 then set_sol 1 2 2
  else if n = 3 then set_sol 1 4 12
  else if n = 4 then set_sol 2 4 4
  else if n = 5 then set_sol 2 4 20
  else if n % 2 = 0 then set_sol (n / 2) (2 * (n / 2)) (2 * (n / 2))
  else if n % 4 = 3 then
    set_sol ((n + 1) % 2 ^ 64 / 4) (2 * (n * ((n + 1) % 2 ^ 64 / 4)))
      (2 * (n * ((n + 1) % 2 ^ 64 / 4)))
  else searchLoop n ((n + 3) % 2 ^ 64 / 4) 50001

/-! ## Embedding of `solve_batch` -/

/-- One output slot of `solve_batch`: the six `u64` words and the found flag that the
batch driver writes for one input element. -/
structure BatchSlot where
  a_lo : Nat
  a_hi : Nat
  b_lo : Nat
  b_hi : Nat
  c_lo : Nat
  c_hi : Nat
  found : Bool
deriving DecidableEq, Repr

/-- The `(hi, lo)` word split performed by `set_sol` when storing a 128-bit value
into the C `Solution` struct: `lo = (u64)v`, `hi = (u64)(v >> 64)`. -/
def toSlot (s : Solution) : BatchSlot :=
  ⟨s.a % 2 ^ 64, s.a / 2 ^ 64 % 2 ^ 64,
   s.b % 2 ^ 64, s.b / 2 ^ 64 % 2 ^ 64,
   s.c % 2 ^ 64, s.c / 2 ^ 64 % 2 ^ 64,
   s.found⟩

/-- Embedding of `solve_batch`: solve each input in order and write the word fields
of the result into the parallel output arrays, one slot per input. -/
def solve_batch : List Nat → List BatchSlot
  | [] => []
  | n :: rest => toSlot (solve_erdos_straus n) :: solve_batch rest

/-! ## Specification-side search description (for the refinement claim about the
search loop) -/

/-- Specification-side search window: the closed inclusive range
`[(n+3)/4, (n+3)/4 + 50000]` listed in increasing order, following the spec's
words. -/
def specWindow (n : Nat) : List Nat :=
  (List.range 50001).map (fun i => x_min n + i)

/-- Specification-side acceptance test for one divisor `d1` at window position `x`,
following steps (a)–(g) of the spec's search description: with `A = 4x - n`,
`nx = n·x`, `D = (nx)²`, skip unless `d1 ≤ nx`, `d1 ≡ target (mod A)` and
`A ∣ d2 + nx`; form `y = (d1 + nx)/A`, `z = (d2 + nx)/A`, reorder so `y ≤ z`,
require both at least `x`, and accept iff the modular verifier passes. -/
def specAccept (n x d1 : Nat) : Option Solution :=
  let A := 4 * x - n
  let nx := n * x
  let D := nx * nx
  if nx < d1 then none
  else if d1 % A ≠ (A - nx % A) % A then none
  else if (D / d1 + nx) % A ≠ 0 then none
  else
    let y0 := (d1 + nx) / A
    let z0 := (D / d1 + nx) / A
    if y0 < x then none
    else
      let yz := if z0 < y0 then (z0, y0) else (y0, z0)
      if yz.1 < x then none
      else if verify128 n x yz.1 yz.2 then some (set_sol x yz.1 yz.2)
      else none

/-- Specification-side description of the whole `n ≡ 1 (mod 4)` search: the first
accepted candidate over the window in increasing order — trying, within each `x`,
divisors in the enumerator's construction order — and the not-found solution when
the window is exhausted. -/
def specSearch (n : Nat) : Solution :=
  match (specWindow n).findSome?
      (fun x => (get_divisors_p2x2R n x).findSome? (specAccept n x)) with
  | some s => s
  | none => notFound

/-! ## Claim C10: return values of `reverse_and_add_count` -/

/-- Carry propagation adds at most one digit. -/
lemma addCarryGo_length : ∀ (l : List Nat) (c : Nat),
    (addCarryGo l c).length ≤ l.length + 1 := by
  intro l
  induction l with
  | nil =>
      intro c
      by_cases hc : c = 0 <;> simp [addCarryGo, hc]
  | cons s rest ih =>
      intro c
      simp only [addCarryGo, List.length_cons]
      have := ih ((s + c) / 10)
      omega

/-- One reverse-and-add step grows the digit count by at most one. -/
lemma add_reverse_length (d : List Nat) : (add_reverse d).length ≤ d.length + 1 := by
  unfold add_reverse
  rw [List.length_reverse]
  have hz : (List.zipWith (· + ·) d.reverse d).length = d.length := by
    rw [List.length_zipWith, List.length_reverse, Nat.min_self]
  have := addCarryGo_length (List.zipWith (· + ·) d.reverse d) 0
  omega

/-- Characterisation of the main loop of `reverse_and_add_count` when the fixed
buffers cannot overflow (digit count plus remaining budget at most `4096`, so
every iteration starts below `MAX_DIGITS`): starting at iteration number `iter`
with `fuel` iterations left on digits `d`, the loop either returns `iter + j` for
the least `j` such that the `(j+1)`-st reverse-and-add image of `d` is a
palindrome, or returns `-1` when no image within the budget is one. -/
lemma raaGo_spec (fuel : Nat) : ∀ (iter : Nat) (d : List Nat),
    d.length + fuel ≤ 4096 →
    (∃ j : Nat, j < fuel ∧ raaGo d fuel iter = some ((iter + j : Nat) : Int) ∧
      is_palindrome (add_reverse^[j + 1] d) = true ∧
      ∀ j' : Nat, j' < j → is_palindrome (add_reverse^[j' + 1] d) = false) ∨
    (raaGo d fuel iter = some (-1) ∧
      ∀ j : Nat, j < fuel → is_palindrome (add_reverse^[j + 1] d) = false) := by
  induction fuel with
  | zero => exact fun iter d _ => Or.inr ⟨rfl, fun j hj => absurd hj (by omega)⟩
  | succ fuel ih =>
      intro iter d hbud
      have hlen : ¬ 4096 ≤ d.length := by omega
      have hbud' : (add_reverse d).length + fuel ≤ 4096 := by
        have := add_reverse_length d
        omega
      by_cases hp : is_palindrome (add_reverse d) = true
      · refine Or.inl ⟨0, by omega, ?_, by simpa using hp, fun j' hj' => absurd hj' (by omega)⟩
        simp [raaGo, hlen, hp]
      · have hp' : is_palindrome (add_reverse d) = false := by
          revert hp; cases is_palindrome (add_reverse d) <;> simp
        have hstep : raaGo d (fuel + 1) iter = raaGo (add_reverse d) fuel (iter + 1) := by
          simp [raaGo, hlen, hp']
        rcases ih (iter + 1) (add_reverse d) hbud' with ⟨j, hj, heq, hpal, hmin⟩ | ⟨heq, hall⟩
        · refine Or.inl ⟨j + 1, by omega, ?_, ?_, ?_⟩
          · rw [hstep, heq]
            have hco : iter + 1 + j = iter + (j + 1) := by omega
            rw [hco]
          · rw [Function.iterate_succ_apply]; exact hpal
          · intro j' hj'
            cases j' with
            | zero => simpa using hp'
            | succ j'' =>
                rw [Function.iterate_succ_apply]
                exact hmin j'' (by omega)
        · refine Or.inr ⟨by rw [hstep, heq], fun j hj => ?_⟩
          cases j with
          | zero => simpa using hp'
          | succ j' =>
              rw [Function.iterate_succ_apply]
              exact hall j' (by omega)

/-- The loop never reports iteration number `0`: `iter` starts at `1` and only
grows, and the other outcomes are `-1` and the overflow failure. -/
lemma raaGo_ne_zero : ∀ (fuel iter : Nat) (d : List Nat), 1 ≤ iter →
    raaGo d fuel iter ≠ some 0 := by
  intro fuel
  induction fuel with
  | zero =>
      intro iter d _ hc
      rw [show raaGo d 0 iter = some (-1) from rfl] at hc
      exact absurd hc (by decide)
  | succ fuel ih =>
      intro iter d h hc
      by_cases hlen : 4096 ≤ d.length
      · rw [show raaGo d (fuel + 1) iter = none from by simp [raaGo, hlen]] at hc
        exact Option.noConfusion hc
      · by_cases hp : is_palindrome (add_reverse d) = true
        · rw [show raaGo d (fuel + 1) iter = some (iter : Int) from by
            simp [raaGo, hlen, hp]] at hc
          have : (iter : Int) = 0 := by injection hc
          omega
        · have hp' : is_palindrome (add_reverse d) = false := by
            revert hp; cases is_palindrome (add_reverse d) <;> simp
          rw [show raaGo d (fuel + 1) iter = raaGo (add_reverse d) fuel (iter + 1) from by
            simp [raaGo, hlen, hp']] at hc
          exact ih (iter + 1) (add_reverse d) (by omega) hc

/-- One non-palindromic loop iteration below the buffer bound. -/
lemma raaGo_step (d : List Nat) (fuel iter : Nat) (hlen : d.length < 4096)
    (hp : is_palindrome (add_reverse d) = false) :
    raaGo d (fuel + 1) iter = raaGo (add_reverse d) fuel (iter + 1) := by
  simp [raaGo, Nat.not_le.mpr hlen, hp]

/-- An iteration entered at or above the buffer bound fails. -/
lemma raaGo_overflow (d : List Nat) (fuel iter : Nat) (hlen : 4096 ≤ d.length) :
    raaGo d (fuel + 1) iter = none := by
  simp [raaGo, hlen]

/-- Pointwise sum of two constant lists. -/
lemma zipWith_add_replicate (a b : Nat) : ∀ n,
    List.zipWith (· + ·) (List.replicate n a) (List.replicate n b) =
      List.replicate n (a + b) := by
  intro n
  induction n with
  | zero => rfl
  | succ n ih => simp [List.replicate_succ, ih]

/-- Carry propagation over a block of `18`s with incoming carry `1` produces `9`s
and a final leading `1`. -/
lemma addCarryGo_rep18_one : ∀ k,
    addCarryGo (List.replicate k 18) 1 = List.replicate k 9 ++ [1] := by
  intro k
  induction k with
  | zero => rfl
  | succ k ih => simp [List.replicate_succ, addCarryGo, ih]

/-- Carry propagation over a nonempty block of `18`s: an `8`, then `9`s, then a
leading `1`. -/
lemma addCarryGo_rep18 (k : Nat) :
    addCarryGo (List.replicate (k + 1) 18) 0 = 8 :: (List.replicate k 9 ++ [1]) := by
  simp [List.replicate_succ, addCarryGo, addCarryGo_rep18_one]

/-- The reverse-and-add image of `k+1` nines is `1 9…9 8` (one digit longer). -/
lemma add_reverse_rep9 (k : Nat) :
    add_reverse (List.replicate (k + 1) 9) = 1 :: (List.replicate k 9 ++ [8]) := by
  unfold add_reverse
  rw [List.reverse_replicate, zipWith_add_replicate,
    show (9 + 9 : Nat) = 18 from rfl, addCarryGo_rep18 k]
  simp

/-- The last digit of `9…9 8` read at its own length index. -/
lemma getD_rep9_append8 : ∀ k, (List.replicate k 9 ++ [8]).getD k 0 = 8 := by
  intro k
  induction k with
  | zero => rfl
  | succ k ih => simp [List.replicate_succ, ih]

/-- `1 9…9 8` is not a palindrome: its first and last digits differ. -/
lemma palin_big_false (k : Nat) :
    is_palindrome (1 :: (List.replicate k 9 ++ [8])) = false := by
  have hd : (1 :: (List.replicate k 9 ++ [8])).length = k + 2 := by simp
  have h0 : (1 :: (List.replicate k 9 ++ [8])).getD 0 0 = 1 := rfl
  have hlast : (1 :: (List.replicate k 9 ++ [8])).getD (k + 1) 0 = 8 :=
    getD_rep9_append8 k
  have hne : ¬ ((1 :: (List.replicate k 9 ++ [8])).getD 0 0 =
      (1 :: (List.replicate k 9 ++ [8])).getD (k + 1) 0) := by
    rw [h0, hlast]
    omega
  unfold is_palindrome
  rw [hd, show k + 2 - 1 = k + 1 from by omega]
  have hstep : palinGo (1 :: (List.replicate k 9 ++ [8])) (k + 2) 0 (k + 1) =
      (if 0 < k + 1 then
        (if (1 :: (List.replicate k 9 ++ [8])).getD 0 0 =
            (1 :: (List.replicate k 9 ++ [8])).getD (k + 1) 0 then
          palinGo (1 :: (List.replicate k 9 ++ [8])) (k + 1) (0 + 1) (k + 1 - 1)
        else false)
      else true) := rfl
  rw [hstep, if_pos (by omega), if_neg hne]

/-- Counterexample to C10 as stated: the 4095-digit input `99…9` passes the entry
guard, but its first reverse-and-add image `1 9…9 8` has 4096 digits and is no
palindrome, so with budget `2` the second iteration's `add_reverse` writes past
the fixed 4096-byte buffers — the function does not return an iteration count or
`-1`. -/
theorem reverse_and_add_overflow_counterexample :
    reverse_and_add_count (List.replicate 4095 9) 2 = none := by
  have hrep : List.replicate 4095 9 = List.replicate (4094 + 1) 9 := rfl
  have hstep' : add_reverse (List.replicate 4095 9) =
      1 :: (List.replicate 4094 9 ++ [8]) := by
    rw [hrep, add_reverse_rep9]
  have hpal : is_palindrome (add_reverse (List.replicate 4095 9)) = false := by
    rw [hstep']
    exact palin_big_false 4094
  have hlen1 : (List.replicate 4095 9).length < 4096 := by
    rw [List.length_replicate]
    omega
  have hlen2 : 4096 ≤ (1 :: (List.replicate 4094 9 ++ [8])).length := by
    simp only [List.length_cons, List.length_append, List.length_replicate,
      List.length_nil]
    omega
  calc reverse_and_add_count (List.replicate 4095 9) 2
      = raaGo (List.replicate 4095 9) 2 1 := by
        unfold reverse_and_add_count
        rw [if_neg (Nat.not_le.mpr hlen1)]
    _ = raaGo (add_reverse (List.replicate 4095 9)) 1 2 :=
        raaGo_step _ 1 1 hlen1 hpal
    _ = raaGo (1 :: (List.replicate 4094 9 ++ [8])) 1 2 := by rw [hstep']
    _ = none := raaGo_overflow _ 0 2 hlen2

/-- Claim C10 (amended): `reverse_and_add_count` returns `-2` exactly on inputs of
4096 or more digits; on shorter inputs, provided the digit count plus the
iteration budget stays within the 4096-digit buffers (so that no mid-loop
overflow is possible), it returns the least `k` with `1 ≤ k ≤ max_iter` whose
`k`-th reverse-and-add image is a palindrome, and `-1` when there is none within
the budget.  It never returns `0`: even a palindromic input undergoes one
reverse-and-add step before the first palindrome check. -/
theorem reverse_and_add_count_spec (s : List Nat) (max_iter : Nat) :
    (4096 ≤ s.length → reverse_and_add_count s max_iter = some (-2)) ∧
    (s.length < 4096 → s.length + max_iter ≤ 4096 →
      ((∃ k : Nat, reverse_and_add_count s max_iter = some (k : Int) ∧ 1 ≤ k ∧
          k ≤ max_iter ∧ is_palindrome (add_reverse^[k] s) = true ∧
          ∀ j : Nat, 1 ≤ j → j < k → is_palindrome (add_reverse^[j] s) = false) ∨
        (reverse_and_add_count s max_iter = some (-1) ∧
          ∀ k : Nat, 1 ≤ k → k ≤ max_iter → is_palindrome (add_reverse^[k] s) = false))) ∧
    reverse_and_add_count s max_iter ≠ some 0 := by
  by_cases hlen : 4096 ≤ s.length
  · have h2 : reverse_and_add_count s max_iter = some (-2) := by
      simp [reverse_and_add_count, hlen]
    exact ⟨fun _ => h2, fun h => absurd hlen (by omega), by rw [h2]; decide⟩
  · have hv : reverse_and_add_count s max_iter = raaGo s max_iter 1 := by
      simp [reverse_and_add_count, hlen]
    refine ⟨fun h => absurd h hlen, fun _ hbud => ?_, ?_⟩
    · rcases raaGo_spec max_iter 1 s (by omega) with ⟨j, hj, heq, hpal, hmin⟩ | ⟨heq, hall⟩
      · refine Or.inl ⟨j + 1, ?_, by omega, by omega, hpal, ?_⟩
        · rw [hv, heq]
          have hco : 1 + j = j + 1 := by omega
          rw [hco]
        · intro j0 h1 h2
          obtain ⟨j0', rfl⟩ : ∃ j0', j0 = j0' + 1 := ⟨j0 - 1, by omega⟩
          exact hmin j0' (by omega)
      · refine Or.inr ⟨by rw [hv, heq], fun k h1 h2 => ?_⟩
        obtain ⟨k', rfl⟩ : ∃ k', k = k' + 1 := ⟨k - 1, by omega⟩
        exact hall k' (by omega)
    · rw [hv]
      exact raaGo_ne_zero max_iter 1 s le_rfl

/-- Witness for (amended) C10 at the two-digit input `19` with budget `5`. -/
theorem reverse_and_add_count_spec_witness :
    ([1, 9].length < 4096 ∧ [1, 9].length + 5 ≤ 4096) ∧
      reverse_and_add_count [1, 9] 5 ≠ some 0 :=
  ⟨⟨by decide, by decide⟩, (reverse_and_add_count_spec [1, 9] 5).2.2⟩

/-! ## Basic lemmas about `set_sol` -/

/-- When the arguments are already sorted, the three-swap network of `set_sol` is
the identity. -/
lemma set_sol_of_sorted (a b c : Nat) (h1 : a ≤ b) (h2 : b ≤ c) :
    set_sol a b c = ⟨a, b, c, true⟩ := by
  simp only [set_sol]
  split_ifs <;> dsimp only <;> simp only [Solution.mk.injEq] <;> omega

/-- The `found` flag is always set by `set_sol`. -/
lemma set_sol_found (a b c : Nat) : (set_sol a b c).found = true := rfl

/-- The fields produced by `set_sol` are sorted. -/
lemma set_sol_sorted (a b c : Nat) :
    (set_sol a b c).a ≤ (set_sol a b c).b ∧ (set_sol a b c).b ≤ (set_sol a b c).c := by
  simp only [set_sol]
  split_ifs <;> dsimp only <;> omega

/-- The first field of `set_sol` is positive when all inputs are. -/
lemma set_sol_pos (a b c : Nat) (ha : 0 < a) (hb : 0 < b) (hc : 0 < c) :
    0 < (set_sol a b c).a := by
  simp only [set_sol]
  split_ifs <;> dsimp only <;> omega

/-- The Erdős–Straus identity is symmetric, so it transfers through the sorting
done by `set_sol`. -/
lemma set_sol_identity (n a b c : Nat)
    (h : 4 * (a * b * c) = n * (a * b + b * c + a * c)) :
    4 * ((set_sol a b c).a * (set_sol a b c).b * (set_sol a b c).c) =
      n * ((set_sol a b c).a * (set_sol a b c).b +
           (set_sol a b c).b * (set_sol a b c).c +
           (set_sol a b c).a * (set_sol a b c).c) := by
  simp only [set_sol]
  split_ifs <;> dsimp only <;> (zify at h ⊢; linear_combination h)

/-! ## Facts about the factorization step (weak form, no primality needed) -/

/-- The inner division loop returns the exact multiplicity: `temp = d^e * t` with
`d` not dividing `t`. -/
lemma divOutGo_eq (d : Nat) (hd : 2 ≤ d) :
    ∀ fuel temp, 1 ≤ temp → temp ≤ fuel →
      temp = d ^ (divOutGo d fuel temp).1 * (divOutGo d fuel temp).2 ∧
      1 ≤ (divOutGo d fuel temp).2 ∧ ¬ d ∣ (divOutGo d fuel temp).2 := by
  intro fuel
  induction fuel with
  | zero => intro temp h1 h2; omega
  | succ fuel ih =>
      intro temp h1 h2
      by_cases hmod : temp % d = 0
      · have hdvd : d ∣ temp := Nat.dvd_of_mod_eq_zero hmod
        have hq1 : 1 ≤ temp / d :=
          (Nat.one_le_div_iff (by omega)).mpr (Nat.le_of_dvd (by omega) hdvd)
        have hlt : temp / d < temp := Nat.div_lt_self (by omega) (by omega)
        obtain ⟨he, ht1, ht2⟩ := ih (temp / d) hq1 (by omega)
        have hexp : divOutGo d (fuel + 1) temp =
            ((divOutGo d fuel (temp / d)).1 + 1, (divOutGo d fuel (temp / d)).2) := by
          simp only [divOutGo]
          rw [if_pos hmod]
        rw [hexp]
        refine ⟨?_, ht1, ht2⟩
        calc temp = d * (temp / d) := (Nat.mul_div_cancel' hdvd).symm
          _ = d * (d ^ (divOutGo d fuel (temp / d)).1 * (divOutGo d fuel (temp / d)).2) := by
              rw [← he]
          _ = d ^ ((divOutGo d fuel (temp / d)).1 + 1) * (divOutGo d fuel (temp / d)).2 := by
              rw [pow_succ]; ring
      · have hexp : divOutGo d (fuel + 1) temp = (0, temp) := by
          simp only [divOutGo]
          rw [if_neg hmod]
        rw [hexp]
        refine ⟨by simp, h1, fun hdvd => hmod ?_⟩
        exact (Nat.mod_eq_zero_of_dvd hdvd)

/-- Structural facts about the trial-division loop that hold for every input: the
recorded factor powers multiply with the residual back to the input, the residual
is positive and not divisible by any recorded base, all recorded bases are at least
`d` with positive exponents, and the bases are strictly increasing. -/
lemma trialDivGo_facts :
    ∀ (fuel nf d temp : Nat), 2 ≤ d → 1 ≤ temp →
      (((trialDivGo fuel nf d temp).1.map (fun pe => pe.1 ^ pe.2)).prod *
          (trialDivGo fuel nf d temp).2 = temp) ∧
      1 ≤ (trialDivGo fuel nf d temp).2 ∧
      (∀ pe ∈ (trialDivGo fuel nf d temp).1, d ≤ pe.1 ∧ 1 ≤ pe.2) ∧
      List.Pairwise (· < ·) ((trialDivGo fuel nf d temp).1.map Prod.fst) ∧
      (∀ pe ∈ (trialDivGo fuel nf d temp).1, ¬ pe.1 ∣ (trialDivGo fuel nf d temp).2) := by
  intro fuel
  induction fuel with
  | zero =>
      intro nf d temp hd h1
      refine ⟨by simp [trialDivGo], by simpa [trialDivGo] using h1,
        by simp [trialDivGo], by simp [trialDivGo], by simp [trialDivGo]⟩
  | succ fuel ih =>
      intro nf d temp hd h1
      by_cases hguard : d * d ≤ temp ∧ nf < 63
      · by_cases hmod : temp % d = 0
        · obtain ⟨he, ht1, ht2⟩ := divOutGo_eq d hd temp temp h1 le_rfl
          obtain ⟨ihprod, ih1, ihmem, ihpair, ihndvd⟩ :=
            ih (nf + 1) (d + 1) (divOutGo d temp temp).2 (by omega) ht1
          have hexp : trialDivGo (fuel + 1) nf d temp =
              ((d, (divOutGo d temp temp).1) ::
                  (trialDivGo fuel (nf + 1) (d + 1) (divOutGo d temp temp).2).1,
                (trialDivGo fuel (nf + 1) (d + 1) (divOutGo d temp temp).2).2) := by
            simp only [trialDivGo]
            rw [if_pos hguard, if_pos hmod]
          rw [hexp]
          have hrdvd : (trialDivGo fuel (nf + 1) (d + 1) (divOutGo d temp temp).2).2 ∣
              (divOutGo d temp temp).2 :=
            ⟨((trialDivGo fuel (nf + 1) (d + 1) (divOutGo d temp temp).2).1.map
                (fun pe => pe.1 ^ pe.2)).prod, by rw [mul_comm]; exact ihprod.symm⟩
          have he1 : 1 ≤ (divOutGo d temp temp).1 := by
            rcases Nat.eq_zero_or_pos (divOutGo d temp temp).1 with h0 | h
            · exfalso
              rw [h0, pow_zero, one_mul] at he
              exact ht2 (he ▸ Nat.dvd_of_mod_eq_zero hmod)
            · exact h
          refine ⟨?_, ih1, ?_, ?_, ?_⟩
          · simp only [List.map_cons, List.prod_cons]
            rw [mul_assoc, ihprod, ← he]
          · intro pe hpe
            rcases List.mem_cons.mp hpe with rfl | hpe
            · exact ⟨le_rfl, he1⟩
            · exact ⟨by have := (ihmem pe hpe).1; omega, (ihmem pe hpe).2⟩
          · simp only [List.map_cons]
            refine List.Pairwise.cons ?_ ihpair
            intro q hq
            obtain ⟨pe, hpe, rfl⟩ := List.mem_map.mp hq
            have := (ihmem pe hpe).1
            omega
          · intro pe hpe
            rcases List.mem_cons.mp hpe with rfl | hpe
            · exact fun hcon => ht2 (hcon.trans hrdvd)
            · exact ihndvd pe hpe
        · have hexp : trialDivGo (fuel + 1) nf d temp = trialDivGo fuel nf (d + 1) temp := by
            simp only [trialDivGo]
            rw [if_pos hguard, if_neg hmod]
          rw [hexp]
          obtain ⟨ihprod, ih1, ihmem, ihpair, ihndvd⟩ := ih nf (d + 1) temp (by omega) h1
          exact ⟨ihprod, ih1,
            fun pe hpe => ⟨by have := (ihmem pe hpe).1; omega, (ihmem pe hpe).2⟩,
            ihpair, ihndvd⟩
      · have hexp : trialDivGo (fuel + 1) nf d temp = ([], temp) := by
          simp only [trialDivGo]
          rw [if_neg hguard]
        rw [hexp]
        refine ⟨by simp, h1, by simp, by simp, by simp⟩

/-- Weak facts about `factorize`: the product of the recorded prime powers divides
`x`, every base is at least `2` with positive exponent, and the bases are pairwise
distinct. -/
lemma factorize_facts (x : Nat) (hx : 1 ≤ x) :
    ((((factorize x).map (fun pe => pe.1 ^ pe.2)).prod) ∣ x) ∧
    (∀ pe ∈ factorize x, 2 ≤ pe.1 ∧ 1 ≤ pe.2) ∧
    List.Pairwise (· ≠ ·) ((factorize x).map Prod.fst) := by
  obtain ⟨hprod, h1, hmem, hpair, hndvd⟩ := trialDivGo_facts x 0 2 x (by omega) hx
  unfold factorize
  by_cases hres : 1 < (trialDivGo x 0 2 x).2 ∧ (trialDivGo x 0 2 x).1.length < 63
  · rw [if_pos hres]
    have hprodeq : (((trialDivGo x 0 2 x).1 ++ [((trialDivGo x 0 2 x).2, 1)]).map
        (fun pe : Nat × Nat => pe.1 ^ pe.2)).prod =
        (((trialDivGo x 0 2 x).1.map (fun pe : Nat × Nat => pe.1 ^ pe.2)).prod) *
          (trialDivGo x 0 2 x).2 := by
      simp [pow_one]
    refine ⟨by rw [hprodeq, hprod], ?_, ?_⟩
    · intro pe hpe
      rcases List.mem_append.mp hpe with hpe | hpe
      · exact hmem pe hpe
      · rcases List.mem_singleton.mp hpe with rfl
        exact ⟨by omega, le_rfl⟩
    · rw [List.map_append]
      rw [List.pairwise_append]
      refine ⟨hpair.imp (fun h => Nat.ne_of_lt h), by simp, ?_⟩
      intro a ha b hb
      obtain ⟨pe, hpe, rfl⟩ := List.mem_map.mp ha
      have hb' : b = (trialDivGo x 0 2 x).2 := by simpa using hb
      subst hb'
      intro hcon
      exact hndvd pe hpe (hcon ▸ dvd_refl _)
  · rw [if_neg hres]
    exact ⟨⟨(trialDivGo x 0 2 x).2, hprod.symm⟩, hmem,
      hpair.imp (fun h => Nat.ne_of_lt h)⟩

/-! ## Strong facts about the factorization step (primality and completeness) -/

/-- Under the capacity bound, trial division records only primes, leaves a residual
that is `1` or prime, and every prime factor of the residual exceeds every recorded
base. -/
lemma trialDivGo_strong :
    ∀ (fuel nf d temp : Nat), 2 ≤ d → 1 ≤ temp → temp + 1 ≤ fuel + d →
      (∀ q, q.Prime → q ∣ temp → d ≤ q) →
      nf + temp.primeFactors.card ≤ 63 →
      (∀ pe ∈ (trialDivGo fuel nf d temp).1, pe.1.Prime) ∧
      ((trialDivGo fuel nf d temp).2 = 1 ∨ (trialDivGo fuel nf d temp).2.Prime) ∧
      (∀ q, q.Prime → q ∣ (trialDivGo fuel nf d temp).2 → d ≤ q) ∧
      (∀ pe ∈ (trialDivGo fuel nf d temp).1, ∀ q, q.Prime →
        q ∣ (trialDivGo fuel nf d temp).2 → pe.1 < q) := by
  intro fuel
  induction fuel with
  | zero =>
      intro nf d temp hd h1 hfuel hq hcap
      have htemp1 : temp = 1 := by
        by_contra hne
        have h2t : 2 ≤ temp := by omega
        have hp := Nat.minFac_prime (show temp ≠ 1 from hne)
        have := hq _ hp (Nat.minFac_dvd temp)
        have := Nat.minFac_le (show 0 < temp by omega)
        omega
      refine ⟨by simp [trialDivGo], ?_, ?_, by simp [trialDivGo]⟩
      · left
        simpa [trialDivGo] using htemp1
      · intro q hqp hqdvd
        exact hq q hqp (by simpa [trialDivGo] using hqdvd)
  | succ fuel ih =>
      intro nf d temp hd h1 hfuel hq hcap
      by_cases hguard : d * d ≤ temp ∧ nf < 63
      · by_cases hmod : temp % d = 0
        · obtain ⟨he, ht1, ht2⟩ := divOutGo_eq d hd temp temp h1 le_rfl
          have hddvd : d ∣ temp := Nat.dvd_of_mod_eq_zero hmod
          have hdprime : d.Prime := by
            have hne1 : d ≠ 1 := by omega
            have hp := Nat.minFac_prime hne1
            have h1' : d ≤ d.minFac := hq _ hp ((Nat.minFac_dvd d).trans hddvd)
            have h2' : d.minFac ≤ d := Nat.minFac_le (by omega)
            have : d.minFac = d := le_antisymm h2' h1'
            rw [← this]
            exact hp
          have he1 : 1 ≤ (divOutGo d temp temp).1 := by
            rcases Nat.eq_zero_or_pos (divOutGo d temp temp).1 with h0 | h
            · exfalso
              rw [h0, pow_zero, one_mul] at he
              exact ht2 (he ▸ hddvd)
            · exact h
          have htlt : (divOutGo d temp temp).2 < temp := by
            have hdp : 2 ≤ d ^ (divOutGo d temp temp).1 := by
              calc 2 ≤ d := hd
                _ = d ^ 1 := (pow_one d).symm
                _ ≤ d ^ (divOutGo d temp temp).1 :=
                    Nat.pow_le_pow_right (by omega) he1
            calc (divOutGo d temp temp).2 < 2 * (divOutGo d temp temp).2 := by omega
              _ ≤ d ^ (divOutGo d temp temp).1 * (divOutGo d temp temp).2 :=
                  Nat.mul_le_mul_right _ hdp
              _ = temp := he.symm
          have hqt : ∀ q, q.Prime → q ∣ (divOutGo d temp temp).2 → d + 1 ≤ q := by
            intro q hqp hqdvd
            have hqtemp : q ∣ temp := hqdvd.trans ⟨d ^ (divOutGo d temp temp).1, by
              rw [mul_comm]; exact he⟩
            have := hq q hqp hqtemp
            rcases Nat.lt_or_ge d q with h | h
            · omega
            · have : q = d := by omega
              subst this
              exact absurd hqdvd ht2
          have hcap' : (nf + 1) + (divOutGo d temp temp).2.primeFactors.card ≤ 63 := by
            have hcard : temp.primeFactors.card =
                (divOutGo d temp temp).2.primeFactors.card + 1 := by
              have hpow0 : d ^ (divOutGo d temp temp).1 ≠ 0 := by positivity
              have ht0 : (divOutGo d temp temp).2 ≠ 0 := by omega
              have hsplit : temp.primeFactors =
                  (d ^ (divOutGo d temp temp).1).primeFactors ∪
                    (divOutGo d temp temp).2.primeFactors := by
                conv_lhs => rw [he]
                exact Nat.primeFactors_mul hpow0 ht0
              have hppow : (d ^ (divOutGo d temp temp).1).primeFactors = {d} := by
                rw [Nat.primeFactors_pow d (by omega), Nat.Prime.primeFactors hdprime]
              have hdnotin : d ∉ (divOutGo d temp temp).2.primeFactors := by
                intro hmem
                exact ht2 (Nat.dvd_of_mem_primeFactors hmem)
              rw [hsplit, hppow]
              rw [Finset.card_union_of_disjoint (by simpa using hdnotin)]
              simp [Nat.add_comm]
            omega
          obtain ⟨ihprime, ihres, ihbound, ihlt⟩ :=
            ih (nf + 1) (d + 1) (divOutGo d temp temp).2 (by omega) ht1
              (by omega) hqt hcap'
          have hexp : trialDivGo (fuel + 1) nf d temp =
              ((d, (divOutGo d temp temp).1) ::
                  (trialDivGo fuel (nf + 1) (d + 1) (divOutGo d temp temp).2).1,
                (trialDivGo fuel (nf + 1) (d + 1) (divOutGo d temp temp).2).2) := by
            simp only [trialDivGo]
            rw [if_pos hguard, if_pos hmod]
          rw [hexp]
          refine ⟨?_, ihres, ?_, ?_⟩
          · intro pe hpe
            rcases List.mem_cons.mp hpe with rfl | hpe
            · exact hdprime
            · exact ihprime pe hpe
          · intro q hqp hqdvd
            have := ihbound q hqp hqdvd
            omega
          · intro pe hpe q hqp hqdvd
            rcases List.mem_cons.mp hpe with rfl | hpe
            · have := ihbound q hqp hqdvd
              omega
            · exact ihlt pe hpe q hqp hqdvd
        · have hq' : ∀ q, q.Prime → q ∣ temp → d + 1 ≤ q := by
            intro q hqp hqdvd
            have := hq q hqp hqdvd
            rcases Nat.lt_or_ge d q with h | h
            · omega
            · have : q = d := by omega
              subst this
              exact absurd (Nat.mod_eq_zero_of_dvd hqdvd) hmod
          have hexp : trialDivGo (fuel + 1) nf d temp = trialDivGo fuel nf (d + 1) temp := by
            simp only [trialDivGo]
            rw [if_pos hguard, if_neg hmod]
          rw [hexp]
          obtain ⟨ihprime, ihres, ihbound, ihlt⟩ :=
            ih nf (d + 1) temp (by omega) h1 (by omega) hq' hcap
          exact ⟨ihprime, ihres, fun q hqp hqdvd => by have := ihbound q hqp hqdvd; omega,
            ihlt⟩
      · have hexp : trialDivGo (fuel + 1) nf d temp = ([], temp) := by
          simp only [trialDivGo]
          rw [if_neg hguard]
        rw [hexp]
        refine ⟨by simp, ?_, by simpa using hq, by simp⟩
        by_cases hdd : d * d ≤ temp
        · -- then the factor-count cap was hit, so the capacity bound forces temp = 1
          have hnf : 63 ≤ nf := by
            by_contra hc
            exact hguard ⟨hdd, by omega⟩
          have hω0 : temp.primeFactors.card = 0 := by omega
          have : temp.primeFactors = ∅ := Finset.card_eq_zero.mp hω0
          have := Nat.primeFactors_eq_empty.mp this
          left
          omega
        · by_cases h1' : temp = 1
          · exact Or.inl h1'
          · right
            by_contra hnp
            have hple := Nat.minFac_sq_le_self (by omega) hnp
            have hge : d ≤ temp.minFac := hq _ (Nat.minFac_prime h1') (Nat.minFac_dvd _)
            have : d * d ≤ temp.minFac * temp.minFac := Nat.mul_le_mul hge hge
            have : temp.minFac * temp.minFac ≤ temp := by
              have := hple
              rwa [pow_two] at this
            omega

/-- Within the capacity bound, `factorize` is the complete prime factorization of
`x`: all bases prime, strictly increasing, and the power product equal to `x`. -/
lemma factorize_strong (x : Nat) (hx : 1 ≤ x) (hω : x.primeFactors.card ≤ 63) :
    (∀ pe ∈ factorize x, pe.1.Prime ∧ 1 ≤ pe.2) ∧
    List.Pairwise (· < ·) ((factorize x).map Prod.fst) ∧
    (((factorize x).map (fun pe : Nat × Nat => pe.1 ^ pe.2)).prod = x) := by
  obtain ⟨hprod, h1, hmem, hpair, hndvd⟩ := trialDivGo_facts x 0 2 x (by omega) hx
  obtain ⟨hprime, hres, hbound, hlt⟩ :=
    trialDivGo_strong x 0 2 x (by omega) hx (by omega)
      (fun q hq _ => hq.two_le) (by omega)
  unfold factorize
  by_cases hres1 : (trialDivGo x 0 2 x).2 = 1
  · have hresguard : ¬ (1 < (trialDivGo x 0 2 x).2 ∧ (trialDivGo x 0 2 x).1.length < 63) := by
      rw [hres1]
      omega
    rw [if_neg hresguard]
    refine ⟨fun pe hpe => ⟨hprime pe hpe, (hmem pe hpe).2⟩, hpair, ?_⟩
    rw [hres1, mul_one] at hprod
    exact hprod
  · have htprime : (trialDivGo x 0 2 x).2.Prime := by
      rcases hres with h | h
      · exact absurd h hres1
      · exact h
    have ht2 : 2 ≤ (trialDivGo x 0 2 x).2 := htprime.two_le
    -- the recorded primes together with the residual inject into `x.primeFactors`
    have hfstdvd : ∀ pe ∈ (trialDivGo x 0 2 x).1, pe.1 ∣ x := by
      intro pe hpe
      have h1le := (hmem pe hpe).2
      have : pe.1 ^ pe.2 ∣ ((trialDivGo x 0 2 x).1.map
          (fun q : Nat × Nat => q.1 ^ q.2)).prod :=
        List.dvd_prod (List.mem_map.mpr ⟨pe, hpe, rfl⟩)
      calc pe.1 = pe.1 ^ 1 := (pow_one _).symm
        _ ∣ pe.1 ^ pe.2 := pow_dvd_pow _ h1le
        _ ∣ ((trialDivGo x 0 2 x).1.map (fun q : Nat × Nat => q.1 ^ q.2)).prod := this
        _ ∣ x := ⟨(trialDivGo x 0 2 x).2, hprod.symm⟩
    have htdvd : (trialDivGo x 0 2 x).2 ∣ x :=
      ⟨((trialDivGo x 0 2 x).1.map (fun q : Nat × Nat => q.1 ^ q.2)).prod,
        by rw [mul_comm]; exact hprod.symm⟩
    have hnodup : ((trialDivGo x 0 2 x).1.map Prod.fst).Nodup :=
      hpair.imp (fun h => Nat.ne_of_lt h)
    have hsubset : insert (trialDivGo x 0 2 x).2
        ((trialDivGo x 0 2 x).1.map Prod.fst).toFinset ⊆ x.primeFactors := by
      intro q hq
      rcases Finset.mem_insert.mp hq with rfl | hq
      · exact Nat.mem_primeFactors.mpr ⟨htprime, htdvd, by omega⟩
      · obtain ⟨pe, hpe, rfl⟩ := List.mem_map.mp (List.mem_toFinset.mp hq)
        exact Nat.mem_primeFactors.mpr ⟨hprime pe hpe, hfstdvd pe hpe, by omega⟩
    have htnotin : (trialDivGo x 0 2 x).2 ∉
        ((trialDivGo x 0 2 x).1.map Prod.fst).toFinset := by
      intro hmem'
      obtain ⟨pe, hpe, hpe2⟩ := List.mem_map.mp (List.mem_toFinset.mp hmem')
      exact hndvd pe hpe (hpe2 ▸ dvd_refl _)
    have hlen : (trialDivGo x 0 2 x).1.length + 1 ≤ 63 := by
      have hcard : ((trialDivGo x 0 2 x).1.map Prod.fst).toFinset.card =
          (trialDivGo x 0 2 x).1.length := by
        rw [List.toFinset_card_of_nodup hnodup, List.length_map]
      have := Finset.card_le_card hsubset
      rw [Finset.card_insert_of_not_mem htnotin, hcard] at this
      omega
    have hresguard : 1 < (trialDivGo x 0 2 x).2 ∧ (trialDivGo x 0 2 x).1.length < 63 := by
      omega
    rw [if_pos hresguard]
    refine ⟨?_, ?_, ?_⟩
    · intro pe hpe
      rcases List.mem_append.mp hpe with hpe | hpe
      · exact ⟨hprime pe hpe, (hmem pe hpe).2⟩
      · rcases List.mem_singleton.mp hpe with rfl
        exact ⟨htprime, le_rfl⟩
    · rw [List.map_append, List.pairwise_append]
      refine ⟨hpair, by simp, ?_⟩
      intro a ha b hb
      obtain ⟨pe, hpe, rfl⟩ := List.mem_map.mp ha
      have hb' : b = (trialDivGo x 0 2 x).2 := by simpa using hb
      subst hb'
      exact hlt pe hpe _ htprime (dvd_refl _)
    · rw [List.map_append, List.prod_append]
      simp only [List.map_cons, List.map_nil, List.prod_cons, List.prod_nil, pow_one,
        mul_one]
      exact hprod

/-! ## Facts about `allFactors` and the divisor expansion (weak form) -/

/-- Doubling the exponents (with the `+2` bump on the unique entry whose base is
`p`) produces a list whose power product divides `(∏ fs)² * p²`, with equality to
`(∏ fs)²` when no base equals `p`. -/
lemma doubled_facts (p : Nat) : ∀ (fs : List (Nat × Nat)),
    List.Pairwise (· ≠ ·) (fs.map Prod.fst) →
    (((fs.map (fun pe => if pe.1 = p then (pe.1, 2 * pe.2 + 2) else (pe.1, 2 * pe.2))).map
        (fun pe : Nat × Nat => pe.1 ^ pe.2)).prod ∣
      ((fs.map (fun pe : Nat × Nat => pe.1 ^ pe.2)).prod) ^ 2 * p ^ 2) ∧
    ((fs.any (fun pe => pe.1 = p)) = false →
      ((fs.map (fun pe => if pe.1 = p then (pe.1, 2 * pe.2 + 2) else (pe.1, 2 * pe.2))).map
        (fun pe : Nat × Nat => pe.1 ^ pe.2)).prod =
        ((fs.map (fun pe : Nat × Nat => pe.1 ^ pe.2)).prod) ^ 2) := by
  intro fs
  induction fs with
  | nil => exact fun _ => ⟨by simp, fun _ => by simp⟩
  | cons pe rest ih =>
      obtain ⟨a, e⟩ := pe
      intro hpair
      rw [List.map_cons, List.pairwise_cons] at hpair
      obtain ⟨hhead, hrest⟩ := hpair
      obtain ⟨ihdvd, iheq⟩ := ih hrest
      by_cases hpe : a = p
      · subst hpe
        have hnomatch : rest.any (fun q => q.1 = a) = false := by
          rw [List.any_eq_false]
          intro q hq
          simp only [decide_eq_true_eq]
          have := hhead q.1 (List.mem_map.mpr ⟨q, hq, rfl⟩)
          exact fun hc => this hc.symm
        have heq := iheq hnomatch
        refine ⟨?_, fun hany => ?_⟩
        · refine dvd_of_eq ?_
          have hred : ((fun pe : Nat × Nat =>
              if pe.1 = a then (pe.1, 2 * pe.2 + 2) else (pe.1, 2 * pe.2)) (a, e)) =
              (a, 2 * e + 2) := by simp
          simp only [List.map_cons, List.prod_cons, hred]
          rw [heq]
          show a ^ (2 * e + 2) * ((rest.map (fun q : Nat × Nat => q.1 ^ q.2)).prod) ^ 2 =
            (a ^ e * (rest.map (fun q : Nat × Nat => q.1 ^ q.2)).prod) ^ 2 * a ^ 2
          ring
        · exfalso
          simp [List.any_cons] at hany
      · refine ⟨?_, fun hany => ?_⟩
        · simp only [List.map_cons, List.prod_cons, if_neg hpe]
          calc a ^ (2 * e) *
                ((rest.map (fun q => if q.1 = p then (q.1, 2 * q.2 + 2) else (q.1, 2 * q.2))).map
                  (fun q : Nat × Nat => q.1 ^ q.2)).prod
              ∣ a ^ (2 * e) *
                (((rest.map (fun q : Nat × Nat => q.1 ^ q.2)).prod) ^ 2 * p ^ 2) :=
                mul_dvd_mul_left _ ihdvd
            _ = (a ^ e * (rest.map (fun q : Nat × Nat => q.1 ^ q.2)).prod) ^ 2 * p ^ 2 := by
                ring
        · simp only [List.any_cons, Bool.or_eq_false_iff, decide_eq_false_iff_not] at hany
          simp only [List.map_cons, List.prod_cons, if_neg hpe, iheq hany.2]
          ring

/-- The power product of the combined factor list of `get_divisors_p2x2R` divides
`p² * x²`, and all bases and exponents are positive. -/
lemma allFactors_facts (p x : Nat) (hp : 1 ≤ p) (hx : 1 ≤ x) :
    ((((allFactors p (factorize x)).map (fun pe : Nat × Nat => pe.1 ^ pe.2)).prod) ∣
      p ^ 2 * x ^ 2) ∧
    (∀ pe ∈ allFactors p (factorize x), 1 ≤ pe.1 ∧ 1 ≤ pe.2) := by
  obtain ⟨hdvdx, hmem, hpair⟩ := factorize_facts x hx
  obtain ⟨hdvd2, heq2⟩ := doubled_facts p (factorize x) hpair
  have hsq : (((factorize x).map (fun pe : Nat × Nat => pe.1 ^ pe.2)).prod) ^ 2 * p ^ 2 ∣
      p ^ 2 * x ^ 2 := by
    rw [mul_comm]
    exact mul_dvd_mul dvd_rfl (pow_dvd_pow_of_dvd hdvdx 2)
  unfold allFactors
  by_cases hany : (factorize x).any (fun pe => pe.1 = p) = true
  · rw [if_pos hany]
    refine ⟨hdvd2.trans hsq, ?_⟩
    intro pe hpe
    obtain ⟨q, hq, rfl⟩ := List.mem_map.mp hpe
    have hq2 := hmem q hq
    by_cases h : q.1 = p <;> simp only [h, if_pos, if_neg] <;> simp <;> omega
  · rw [if_neg hany]
    have hany' : (factorize x).any (fun pe => pe.1 = p) = false := by
      revert hany
      cases (factorize x).any (fun pe => pe.1 = p) <;> simp
    refine ⟨?_, ?_⟩
    · have : (((factorize x).map
          (fun pe : Nat × Nat => if pe.1 = p then (pe.1, 2 * pe.2 + 2) else (pe.1, 2 * pe.2)) ++
            [(p, 2)]).map (fun pe : Nat × Nat => pe.1 ^ pe.2)).prod =
          (((factorize x).map (fun pe : Nat × Nat => pe.1 ^ pe.2)).prod) ^ 2 * p ^ 2 := by
        rw [List.map_append, List.prod_append, heq2 hany']
        simp
      rw [this]
      exact hsq
    · intro pe hpe
      rcases List.mem_append.mp hpe with hpe | hpe
      · obtain ⟨q, hq, rfl⟩ := List.mem_map.mp hpe
        have hq2 := hmem q hq
        by_cases h : q.1 = p <;> simp only [h, if_pos, if_neg] <;> simp <;> omega
      · rcases List.mem_singleton.mp hpe with rfl
        exact ⟨hp, by omega⟩

/-- Membership in the inner append loop: every element is old or a scaled copy of a
stable entry. -/
lemma innerJR_mem (prev : List Nat) (pe : Nat) (acc : List Nat) :
    ∀ el ∈ innerJR prev pe acc, el ∈ acc ∨ ∃ u ∈ prev, el = u * pe := by
  intro el hel
  rcases List.mem_append.mp hel with h | h
  · exact Or.inl h
  · obtain ⟨u, hu, rfl⟩ := List.mem_map.mp (List.mem_of_mem_take h)
    exact Or.inr ⟨u, hu, rfl⟩

/-- Membership in the middle loop: every element is old or a stable entry times
`pe * pr^j` for some `1 ≤ j ≤ e`. -/
lemma middleER_mem (prev : List Nat) (pr : Nat) :
    ∀ (e pe : Nat) (acc : List Nat), ∀ el ∈ middleER prev pr e pe acc,
      el ∈ acc ∨ ∃ u ∈ prev, ∃ j, 1 ≤ j ∧ j ≤ e ∧ el = u * (pe * pr ^ j) := by
  intro e
  induction e with
  | zero => intro pe acc el hel; exact Or.inl hel
  | succ e ih =>
      intro pe acc el hel
      rw [middleER] at hel
      by_cases hlen : acc.length < MAX_DIVS
      · rw [if_pos hlen] at hel
        rcases ih (pe * pr) (innerJR prev (pe * pr) acc) el hel with h | ⟨u, hu, j, hj1, hj2, rfl⟩
        · rcases innerJR_mem prev (pe * pr) acc el h with h' | ⟨u, hu, rfl⟩
          · exact Or.inl h'
          · exact Or.inr ⟨u, hu, 1, le_rfl, by omega, by ring⟩
        · exact Or.inr ⟨u, hu, j + 1, by omega, by omega, by ring⟩
      · rw [if_neg hlen] at hel
        exact Or.inl hel

/-- Every element produced by the expansion loop is positive and divides `M` times
the product of the remaining factor powers, provided the seed elements are positive
divisors of `M`. -/
lemma outerLoopR_dvd : ∀ (fs : List (Nat × Nat)) (divs : List Nat) (M : Nat),
    (∀ u ∈ divs, 0 < u ∧ u ∣ M) → (∀ pe ∈ fs, 1 ≤ pe.1) →
    ∀ el ∈ outerLoopR fs divs,
      0 < el ∧ el ∣ M * ((fs.map (fun pe : Nat × Nat => pe.1 ^ pe.2)).prod) := by
  intro fs
  induction fs with
  | nil =>
      intro divs M hdivs _ el hel
      rw [outerLoopR] at hel
      exact ⟨(hdivs el hel).1, by simpa using (hdivs el hel).2⟩
  | cons f rest ih =>
      intro divs M hdivs hfs el hel
      rw [outerLoopR] at hel
      by_cases hlen : divs.length < MAX_DIVS
      · rw [if_pos hlen] at hel
        have hnew : ∀ u ∈ middleER divs f.1 f.2 1 divs, 0 < u ∧ u ∣ M * f.1 ^ f.2 := by
          intro u hu
          rcases middleER_mem divs f.1 f.2 1 divs u hu with h | ⟨v, hv, j, hj1, hj2, rfl⟩
          · exact ⟨(hdivs u h).1, (hdivs u h).2.trans (dvd_mul_right M _)⟩
          · have hv2 := hdivs v hv
            have hf1 : 1 ≤ f.1 := hfs f (List.mem_cons_self f rest)
            constructor
            · have : 0 < f.1 ^ j := Nat.pos_pow_of_pos j hf1
              have := hv2.1
              positivity
            · rw [one_mul]
              exact mul_dvd_mul hv2.2 (pow_dvd_pow f.1 hj2)
        have := ih (middleER divs f.1 f.2 1 divs) (M * f.1 ^ f.2) hnew
          (fun pe hpe => hfs pe (List.mem_cons_of_mem f hpe)) el hel
        refine ⟨this.1, ?_⟩
        have h2 := this.2
        rw [List.map_cons, List.prod_cons, ← mul_assoc]
        exact h2
      · rw [if_neg hlen] at hel
        exact ⟨(hdivs el hel).1,
          (hdivs el hel).2.trans (dvd_mul_right M _)⟩

/-- Every entry of the divisor buffer built by `get_divisors_p2x2R` is a positive
divisor of `p² * x²`. -/
lemma get_divisors_dvd (p x : Nat) (hp : 1 ≤ p) (hx : 1 ≤ x) :
    ∀ el ∈ get_divisors_p2x2R p x, 0 < el ∧ el ∣ p ^ 2 * x ^ 2 := by
  intro el hel
  obtain ⟨hdvd, hmem⟩ := allFactors_facts p x hp hx
  have := outerLoopR_dvd (allFactors p (factorize x)) [1] 1
    (by intro u hu; rcases List.mem_singleton.mp hu with rfl; exact ⟨one_pos, one_dvd _⟩)
    (fun pe hpe => (hmem pe hpe).1) el hel
  exact ⟨this.1, (this.2.trans (by simpa using hdvd))⟩

/-! ## Strong facts about `allFactors` and exact divisor enumeration -/

/-- Exact power products of the doubled list: `(∏ fs)² · p²` when some base equals
`p` (bases pairwise distinct), and `(∏ fs)²` when none does. -/
lemma doubled_prod_eq (p : Nat) : ∀ (fs : List (Nat × Nat)),
    List.Pairwise (· ≠ ·) (fs.map Prod.fst) →
    ((fs.any (fun pe => pe.1 = p)) = true →
      ((fs.map (fun pe => if pe.1 = p then (pe.1, 2 * pe.2 + 2) else (pe.1, 2 * pe.2))).map
        (fun pe : Nat × Nat => pe.1 ^ pe.2)).prod =
        ((fs.map (fun pe : Nat × Nat => pe.1 ^ pe.2)).prod) ^ 2 * p ^ 2) ∧
    ((fs.any (fun pe => pe.1 = p)) = false →
      ((fs.map (fun pe => if pe.1 = p then (pe.1, 2 * pe.2 + 2) else (pe.1, 2 * pe.2))).map
        (fun pe : Nat × Nat => pe.1 ^ pe.2)).prod =
        ((fs.map (fun pe : Nat × Nat => pe.1 ^ pe.2)).prod) ^ 2) := by
  intro fs
  induction fs with
  | nil => exact fun _ => ⟨fun h => by simp at h, fun _ => by simp⟩
  | cons pe rest ih =>
      obtain ⟨a, e⟩ := pe
      intro hpair
      rw [List.map_cons, List.pairwise_cons] at hpair
      obtain ⟨hhead, hrest⟩ := hpair
      obtain ⟨ihyes, ihno⟩ := ih hrest
      by_cases hpe : a = p
      · subst hpe
        have hnomatch : rest.any (fun q => q.1 = a) = false := by
          rw [List.any_eq_false]
          intro q hq
          simp only [decide_eq_true_eq]
          have := hhead q.1 (List.mem_map.mpr ⟨q, hq, rfl⟩)
          exact fun hc => this hc.symm
        have heq := ihno hnomatch
        refine ⟨fun _ => ?_, fun hany => ?_⟩
        · have hred : ((fun q : Nat × Nat =>
              if q.1 = a then (q.1, 2 * q.2 + 2) else (q.1, 2 * q.2)) (a, e)) =
              (a, 2 * e + 2) := by simp
          simp only [List.map_cons, List.prod_cons, hred]
          rw [heq]
          show a ^ (2 * e + 2) * ((rest.map (fun q : Nat × Nat => q.1 ^ q.2)).prod) ^ 2 =
            (a ^ e * (rest.map (fun q : Nat × Nat => q.1 ^ q.2)).prod) ^ 2 * a ^ 2
          ring
        · exfalso
          simp [List.any_cons] at hany
      · have hred : ((fun q : Nat × Nat =>
            if q.1 = p then (q.1, 2 * q.2 + 2) else (q.1, 2 * q.2)) (a, e)) =
            (a, 2 * e) := by simp [hpe]
        refine ⟨fun hany => ?_, fun hany => ?_⟩
        · have hrest' : rest.any (fun q => q.1 = p) = true := by
            simp only [List.any_cons, hpe] at hany
            simpa using hany
          simp only [List.map_cons, List.prod_cons, hred, ihyes hrest']
          show a ^ (2 * e) * (((rest.map (fun q : Nat × Nat => q.1 ^ q.2)).prod) ^ 2 * p ^ 2) =
            (a ^ e * (rest.map (fun q : Nat × Nat => q.1 ^ q.2)).prod) ^ 2 * p ^ 2
          ring
        · simp only [List.any_cons, Bool.or_eq_false_iff, decide_eq_false_iff_not] at hany
          simp only [List.map_cons, List.prod_cons, hred, ihno hany.2]
          show a ^ (2 * e) * ((rest.map (fun q : Nat × Nat => q.1 ^ q.2)).prod) ^ 2 =
            (a ^ e * (rest.map (fun q : Nat × Nat => q.1 ^ q.2)).prod) ^ 2
          ring

/-- Strong facts about the combined factor list for prime `p`: all bases prime with
positive exponents, pairwise distinct, and the power product exactly `p² · x²`. -/
lemma allFactors_strong (p x : Nat) (hp : p.Prime) (hx : 1 ≤ x)
    (hω : x.primeFactors.card ≤ 63) :
    (∀ pe ∈ allFactors p (factorize x), pe.1.Prime ∧ 1 ≤ pe.2) ∧
    List.Pairwise (· ≠ ·) ((allFactors p (factorize x)).map Prod.fst) ∧
    (((allFactors p (factorize x)).map (fun pe : Nat × Nat => pe.1 ^ pe.2)).prod =
      p ^ 2 * x ^ 2) := by
  obtain ⟨hmem, hpairlt, hprodx⟩ := factorize_strong x hx hω
  have hpairne : List.Pairwise (· ≠ ·) ((factorize x).map Prod.fst) :=
    hpairlt.imp (fun h => Nat.ne_of_lt h)
  obtain ⟨hyes, hno⟩ := doubled_prod_eq p (factorize x)  hpairne
  have hfst : ((factorize x).map
      (fun pe : Nat × Nat => if pe.1 = p then (pe.1, 2 * pe.2 + 2) else (pe.1, 2 * pe.2))).map
        Prod.fst = (factorize x).map Prod.fst := by
    rw [List.map_map]
    apply List.map_congr_left
    intro pe _
    by_cases h : pe.1 = p <;> simp [h]
  have hmem2 : ∀ pe ∈ (factorize x).map
      (fun q : Nat × Nat => if q.1 = p then (q.1, 2 * q.2 + 2) else (q.1, 2 * q.2)),
      pe.1.Prime ∧ 1 ≤ pe.2 := by
    intro pe hpe
    obtain ⟨q, hq, rfl⟩ := List.mem_map.mp hpe
    obtain ⟨hq1, hq2⟩ := hmem q hq
    by_cases h : q.1 = p
    · rw [if_pos h]
      exact ⟨hq1, by show 1 ≤ 2 * q.2 + 2; omega⟩
    · rw [if_neg h]
      exact ⟨hq1, by show 1 ≤ 2 * q.2; omega⟩
  unfold allFactors
  by_cases hany : (factorize x).any (fun pe => pe.1 = p) = true
  · rw [if_pos hany]
    refine ⟨hmem2, by rw [hfst]; exact hpairne, ?_⟩
    rw [hyes hany, hprodx]
    ring
  · rw [if_neg hany]
    have hany' : (factorize x).any (fun pe => pe.1 = p) = false := by
      revert hany
      cases (factorize x).any (fun pe => pe.1 = p) <;> simp
    have hpnotin : ∀ q ∈ (factorize x).map Prod.fst, q ≠ p := by
      intro q hq
      obtain ⟨pe, hpe, rfl⟩ := List.mem_map.mp hq
      rw [List.any_eq_false] at hany'
      have := hany' pe hpe
      simpa using this
    refine ⟨?_, ?_, ?_⟩
    · intro pe hpe
      rcases List.mem_append.mp hpe with hpe | hpe
      · exact hmem2 pe hpe
      · rcases List.mem_singleton.mp hpe with rfl
        exact ⟨hp, by omega⟩
    · rw [List.map_append, List.pairwise_append, hfst]
      refine ⟨hpairne, by simp, ?_⟩
      intro a ha b hb
      have hb' : b = p := by simpa using hb
      subst hb'
      exact hpnotin a ha
    · rw [List.map_append, List.prod_append]
      simp only [List.map_cons, List.map_nil, List.prod_cons, List.prod_nil, mul_one]
      rw [hno hany', hprodx]
      ring

/-- Splitting off one more power of a prime-free factor: the divisors of
`M · pr^(k+1)` are those of `M · pr^k` together with `u · pr^(k+1)` for `u ∣ M`. -/
lemma divisors_mul_prime_pow_succ (M pr k : Nat) (hM : 0 < M) (hpr : pr.Prime) :
    (M * pr ^ (k + 1)).divisors =
      (M * pr ^ k).divisors ∪ M.divisors.image (fun u => u * pr ^ (k + 1)) := by
  have hpr0 : 0 < pr := hpr.pos
  have hne1 : M * pr ^ (k + 1) ≠ 0 := by positivity
  have hne2 : M * pr ^ k ≠ 0 := by positivity
  ext d
  simp only [Nat.mem_divisors, Finset.mem_union, Finset.mem_image]
  constructor
  · rintro ⟨hdvd, _⟩
    obtain ⟨u, w, hu, hw, huw⟩ := Nat.dvd_mul.mp hdvd
    obtain ⟨j, hj, rfl⟩ := (Nat.dvd_prime_pow hpr).mp hw
    rcases Nat.lt_or_ge j (k + 1) with hjk | hjk
    · left
      refine ⟨?_, hne2⟩
      rw [← huw]
      exact mul_dvd_mul hu (pow_dvd_pow pr (by omega))
    · right
      have : j = k + 1 := by omega
      subst this
      exact ⟨u, ⟨hu, by omega⟩, huw⟩
  · rintro (⟨hdvd, _⟩ | ⟨u, ⟨hu, _⟩, rfl⟩)
    · refine ⟨hdvd.trans (mul_dvd_mul dvd_rfl (pow_dvd_pow pr (by omega))), hne1⟩
    · exact ⟨mul_dvd_mul hu dvd_rfl, hne1⟩

/-- Lists to finsets commute with `map` as image. -/
lemma list_toFinset_map (l : List Nat) (f : Nat → Nat) :
    (l.map f).toFinset = l.toFinset.image f := by
  ext a
  simp

/-- Exact behaviour of the middle expansion loop below the cap: starting from the
divisor list of `M · pr^k` it produces the divisor list of `M · pr^(k+e)`, with the
expected length. -/
lemma middleER_divisors (prev : List Nat) (pr M : Nat)
    (hprev : prev.toFinset = M.divisors)
    (hplen : prev.length = M.divisors.card)
    (hM : 0 < M) (hpr : pr.Prime) :
    ∀ (e k pe : Nat) (acc : List Nat), pe = pr ^ k →
      acc.toFinset = (M * pr ^ k).divisors →
      acc.length = M.divisors.card * (k + 1) →
      M.divisors.card * (k + 1 + e) ≤ MAX_DIVS →
      (middleER prev pr e pe acc).toFinset = (M * pr ^ (k + e)).divisors ∧
      (middleER prev pr e pe acc).length = M.divisors.card * (k + 1 + e) := by
  intro e
  induction e with
  | zero =>
      intro k pe acc hpe hacc hlen hbud
      constructor
      · show acc.toFinset = (M * pr ^ (k + 0)).divisors
        rw [Nat.add_zero]
        exact hacc
      · show acc.length = M.divisors.card * (k + 1 + 0)
        rw [Nat.add_zero]
        exact hlen
  | succ e ihe =>
      intro k pe acc hpe hacc hlen hbud
      have hc1 : 1 ≤ M.divisors.card :=
        Finset.card_pos.mpr ⟨M, Nat.mem_divisors_self M (by omega)⟩
      have hsplit : M.divisors.card * (k + 1) + M.divisors.card * (e + 1) =
          M.divisors.card * (k + 1 + (e + 1)) := by ring
      have hlt : acc.length < MAX_DIVS := by
        have h1 : 1 ≤ M.divisors.card * (e + 1) :=
          Nat.one_le_iff_ne_zero.mpr (by positivity)
        omega
      have hstep : middleER prev pr (e + 1) pe acc =
          middleER prev pr e (pe * pr) (innerJR prev (pe * pr) acc) := by
        rw [middleER, if_pos hlt]
      have htake : (prev.map (fun u => u * (pe * pr))).take (MAX_DIVS - acc.length) =
          prev.map (fun u => u * (pe * pr)) := by
        apply List.take_of_length_le
        rw [List.length_map, hplen]
        have h2 : M.divisors.card * (k + 2) ≤ M.divisors.card * (k + 1 + (e + 1)) :=
          Nat.mul_le_mul_left _ (by omega)
        have h3 : M.divisors.card * (k + 2) = M.divisors.card * (k + 1) +
            M.divisors.card := by ring
        omega
      have hinner : innerJR prev (pe * pr) acc =
          acc ++ prev.map (fun u => u * (pe * pr)) := by
        rw [innerJR, htake]
      have hfun : (fun u => u * (pe * pr)) = (fun u => u * pr ^ (k + 1)) := by
        funext u
        rw [hpe, pow_succ]
      have hacc' : (acc ++ prev.map (fun u => u * (pe * pr))).toFinset =
          (M * pr ^ (k + 1)).divisors := by
        rw [List.toFinset_append, list_toFinset_map, hprev, hacc, hfun,
          divisors_mul_prime_pow_succ M pr k hM hpr]
      have hlen' : (acc ++ prev.map (fun u => u * (pe * pr))).length =
          M.divisors.card * ((k + 1) + 1) := by
        rw [List.length_append, List.length_map, hlen, hplen]
        ring
      have hbud' : M.divisors.card * ((k + 1) + 1 + e) ≤ MAX_DIVS := by
        have : (k + 1) + 1 + e = k + 1 + (e + 1) := by omega
        rw [this]
        exact hbud
      have hfin := ihe (k + 1) (pe * pr) (acc ++ prev.map (fun u => u * (pe * pr)))
        (by rw [hpe, pow_succ]) hacc' hlen' hbud'
      rw [hstep, hinner]
      constructor
      · rw [hfin.1]
        have : (k + 1) + e = k + (e + 1) := by omega
        rw [this]
      · rw [hfin.2]
        have : (k + 1) + 1 + e = k + 1 + (e + 1) := by omega
        rw [this]

/-- Exact behaviour of the outer expansion loop below the cap: processing a list of
pairwise-distinct prime powers coprime to `M` turns the divisor list of `M` into the
divisor list of `M` times those powers. -/
lemma outerLoopR_divisors : ∀ (fs : List (Nat × Nat)) (divs : List Nat) (M : Nat),
    0 < M →
    divs.toFinset = M.divisors → divs.length = M.divisors.card →
    (∀ pe ∈ fs, pe.1.Prime ∧ 1 ≤ pe.2) →
    List.Pairwise (· ≠ ·) (fs.map Prod.fst) →
    (∀ pe ∈ fs, ¬ pe.1 ∣ M) →
    (M * ((fs.map (fun pe : Nat × Nat => pe.1 ^ pe.2)).prod)).divisors.card ≤ MAX_DIVS →
    (outerLoopR fs divs).toFinset =
      (M * ((fs.map (fun pe : Nat × Nat => pe.1 ^ pe.2)).prod)).divisors ∧
    (outerLoopR fs divs).length =
      (M * ((fs.map (fun pe : Nat × Nat => pe.1 ^ pe.2)).prod)).divisors.card := by
  intro fs
  induction fs with
  | nil =>
      intro divs M hM hdivs hlen _ _ _ _
      rw [outerLoopR]
      constructor
      · rw [hdivs]
        simp
      · rw [hlen]
        simp
  | cons f rest ih =>
      intro divs M hM hdivs hlen hmem hpair hndvd hbud
      obtain ⟨hfp, hfe⟩ := hmem f (List.mem_cons_self f rest)
      have hfnd : ¬ f.1 ∣ M := hndvd f (List.mem_cons_self f rest)
      rw [List.map_cons, List.pairwise_cons] at hpair
      obtain ⟨hhead, hrest⟩ := hpair
      have hc1 : 1 ≤ M.divisors.card :=
        Finset.card_pos.mpr ⟨M, Nat.mem_divisors_self M (by omega)⟩
      have hcop : Nat.Coprime (f.1 ^ f.2) M :=
        Nat.Coprime.pow_left _ ((Nat.Prime.coprime_iff_not_dvd hfp).mpr hfnd)
      have hcardmul : (M * f.1 ^ f.2).divisors.card =
          M.divisors.card * (f.2 + 1) := by
        rw [mul_comm M (f.1 ^ f.2), Nat.Coprime.card_divisors_mul hcop,
          Nat.divisors_prime_pow hfp, Finset.card_map, Finset.card_range]
        ring
      have hprodcons : ((f :: rest).map (fun pe : Nat × Nat => pe.1 ^ pe.2)).prod =
          f.1 ^ f.2 * ((rest.map (fun pe : Nat × Nat => pe.1 ^ pe.2)).prod) := by
        rw [List.map_cons, List.prod_cons]
      have hrestpos : 0 < ((rest.map (fun pe : Nat × Nat => pe.1 ^ pe.2)).prod) := by
        apply List.prod_pos
        intro a ha
        obtain ⟨pe, hpe, rfl⟩ := List.mem_map.mp ha
        exact pow_pos (hmem pe (List.mem_cons_of_mem f hpe)).1.pos _
      have hM1 : 0 < M * f.1 ^ f.2 := Nat.mul_pos hM (pow_pos hfp.pos _)
      have hfinalpos : 0 < M * ((f :: rest).map (fun pe : Nat × Nat => pe.1 ^ pe.2)).prod := by
        rw [hprodcons]
        exact Nat.mul_pos hM (Nat.mul_pos (pow_pos hfp.pos _) hrestpos)
      have hdvdfinal : M * f.1 ^ f.2 ∣
          M * ((f :: rest).map (fun pe : Nat × Nat => pe.1 ^ pe.2)).prod := by
        rw [hprodcons, ← mul_assoc]
        exact dvd_mul_right _ _
      have hcardle : (M * f.1 ^ f.2).divisors.card ≤ MAX_DIVS := by
        have hsub := Nat.divisors_subset_of_dvd (by omega) hdvdfinal
        have := Finset.card_le_card hsub
        omega
      have h4 : (M * f.1 ^ f.2).divisors.card =
          M.divisors.card * f.2 + M.divisors.card := by
        rw [hcardmul]
        ring
      have h5 : M.divisors.card * 1 ≤ M.divisors.card * f.2 :=
        Nat.mul_le_mul_left _ hfe
      have hguard : divs.length < MAX_DIVS := by
        rw [hlen]
        omega
      have hmid := middleER_divisors divs f.1 M hdivs hlen hM hfp f.2 0 1 divs
        (by rw [pow_zero]) (by rw [pow_zero, mul_one]; exact hdivs)
        (by rw [hlen]; ring)
        (by
          have h6 : M.divisors.card * (0 + 1 + f.2) =
              M.divisors.card * f.2 + M.divisors.card := by ring
          omega)
      have hmidset : (middleER divs f.1 f.2 1 divs).toFinset = (M * f.1 ^ f.2).divisors := by
        rw [hmid.1, Nat.zero_add]
      have hmidlen : (middleER divs f.1 f.2 1 divs).length = (M * f.1 ^ f.2).divisors.card := by
        rw [hmid.2, hcardmul, Nat.zero_add]
        ring
      have hndvd' : ∀ pe ∈ rest, ¬ pe.1 ∣ M * f.1 ^ f.2 := by
        intro pe hpe hdvd
        have hpep := (hmem pe (List.mem_cons_of_mem f hpe)).1
        rcases (Nat.Prime.dvd_mul hpep).mp hdvd with h | h
        · exact hndvd pe (List.mem_cons_of_mem f hpe) h
        · have := (Nat.prime_dvd_prime_iff_eq hpep hfp).mp (hpep.dvd_of_dvd_pow h)
          exact hhead pe.1 (List.mem_map.mpr ⟨pe, hpe, rfl⟩) this.symm
      have hbud' : ((M * f.1 ^ f.2) *
          ((rest.map (fun pe : Nat × Nat => pe.1 ^ pe.2)).prod)).divisors.card ≤
            MAX_DIVS := by
        have hassoc : (M * f.1 ^ f.2) *
            ((rest.map (fun pe : Nat × Nat => pe.1 ^ pe.2)).prod) =
            M * ((f :: rest).map (fun pe : Nat × Nat => pe.1 ^ pe.2)).prod := by
          rw [hprodcons]
          ring
        rw [hassoc]
        exact hbud
      have hihres := ih (middleER divs f.1 f.2 1 divs) (M * f.1 ^ f.2) hM1 hmidset hmidlen
        (fun pe hpe => hmem pe (List.mem_cons_of_mem f hpe)) hrest hndvd' hbud'
      have hassoc : (M * f.1 ^ f.2) *
          ((rest.map (fun pe : Nat × Nat => pe.1 ^ pe.2)).prod) =
          M * ((f :: rest).map (fun pe : Nat × Nat => pe.1 ^ pe.2)).prod := by
        rw [hprodcons]
        ring
      have hstep : outerLoopR (f :: rest) divs = outerLoopR rest (middleER divs f.1 f.2 1 divs) := by
        rw [outerLoopR, if_pos hguard]
      rw [hstep]
      rw [hassoc] at hihres
      exact hihres

/-! ## Bridging lemmas: the faithful loops agree with the exact reference loops
whenever no 64/128-bit wrap can occur -/

/-- When every value the middle loop can construct divides a bound `N < 2^64`,
the `u64` reductions on the running prime power and on the stored products are
identities, so the faithful loop equals the exact reference loop.  The divisor
invariant is threaded as `pe ∣ K`, `K · pr^e ∣ L`, `M · L ∣ N`. -/
lemma middleE_eq_R (prev : List Nat) (pr M N : Nat) (hN : 0 < N) (hN64 : N < 2 ^ 64)
    (hprev : ∀ u ∈ prev, u ∣ M) :
    ∀ (e pe K L : Nat), pe ∣ K → K * pr ^ e ∣ L → M * L ∣ N →
      ∀ acc, middleE prev pr e pe acc = middleER prev pr e pe acc := by
  intro e
  induction e with
  | zero => intro pe K L _ _ _ acc; rfl
  | succ e ih =>
      intro pe K L hpeK hKL hMLN acc
      have hKpr : K * pr ∣ L := dvd_trans ⟨pr ^ e, by ring⟩ hKL
      have hpepr : pe * pr ∣ K * pr := mul_dvd_mul hpeK dvd_rfl
      have hLN : L ∣ N := (dvd_mul_left L M).trans hMLN
      have hpeprN : pe * pr ∣ N := (hpepr.trans hKpr).trans hLN
      have hkey : pe * pr % 2 ^ 64 = pe * pr :=
        Nat.mod_eq_of_lt (lt_of_le_of_lt (Nat.le_of_dvd hN hpeprN) hN64)
      have hmap : prev.map (fun u => u * (pe * pr) % 2 ^ 64) =
          prev.map (fun u => u * (pe * pr)) := by
        apply List.map_congr_left
        intro u hu
        have huN : u * (pe * pr) ∣ N := by
          have hstep1 : u * (pe * pr) ∣ M * (K * pr) := mul_dvd_mul (hprev u hu) hpepr
          have hstep2 : M * (K * pr) ∣ M * L := mul_dvd_mul_left M hKpr
          exact (hstep1.trans hstep2).trans hMLN
        exact Nat.mod_eq_of_lt (lt_of_le_of_lt (Nat.le_of_dvd hN huN) hN64)
      have hKL' : (K * pr) * pr ^ e ∣ L := by
        have he : (K * pr) * pr ^ e = K * pr ^ (e + 1) := by ring
        rw [he]
        exact hKL
      by_cases hlen : acc.length < MAX_DIVS
      · rw [middleE, middleER, if_pos hlen, if_pos hlen, hkey]
        have hinner : innerJ prev (pe * pr) acc = innerJR prev (pe * pr) acc := by
          unfold innerJ innerJR
          rw [hmap]
        rw [hinner]
        exact ih (pe * pr) (K * pr) L hpepr hKL' hMLN (innerJR prev (pe * pr) acc)
      · rw [middleE, middleER, if_neg hlen, if_neg hlen]

/-- The faithful outer expansion loop equals the exact reference loop whenever the
bound `M · ∏ fs` of all constructed entries divides some `N < 2^64`. -/
lemma outerLoop_eq_R (N : Nat) (hN : 0 < N) (hN64 : N < 2 ^ 64) :
    ∀ (fs : List (Nat × Nat)) (divs : List Nat) (M : Nat),
      (∀ u ∈ divs, u ∣ M) →
      M * ((fs.map (fun pe : Nat × Nat => pe.1 ^ pe.2)).prod) ∣ N →
      outerLoop fs divs = outerLoopR fs divs := by
  intro fs
  induction fs with
  | nil => intro divs M _ _; rfl
  | cons f rest ih =>
      intro divs M hdivs hMN
      by_cases hlen : divs.length < MAX_DIVS
      · rw [outerLoop, outerLoopR, if_pos hlen, if_pos hlen]
        have hMf : M * f.1 ^ f.2 *
            ((rest.map (fun pe : Nat × Nat => pe.1 ^ pe.2)).prod) ∣ N := by
          have he : M * f.1 ^ f.2 * ((rest.map (fun pe : Nat × Nat => pe.1 ^ pe.2)).prod) =
              M * (((f :: rest).map (fun pe : Nat × Nat => pe.1 ^ pe.2)).prod) := by
            rw [List.map_cons, List.prod_cons]
            ring
          rw [he]
          exact hMN
        have hMfN : M * f.1 ^ f.2 ∣ N := (dvd_mul_right _ _).trans hMf
        have hmid : middleE divs f.1 f.2 1 divs = middleER divs f.1 f.2 1 divs :=
          middleE_eq_R divs f.1 M N hN hN64 hdivs f.2 1 1 (f.1 ^ f.2) dvd_rfl
            (by rw [one_mul]) hMfN divs
        rw [hmid]
        have hnew : ∀ u ∈ middleER divs f.1 f.2 1 divs, u ∣ M * f.1 ^ f.2 := by
          intro u hu
          rcases middleER_mem divs f.1 f.2 1 divs u hu with h | ⟨v, hv, j, _, hj2, rfl⟩
          · exact (hdivs u h).trans (dvd_mul_right M _)
          · rw [one_mul]
            exact mul_dvd_mul (hdivs v hv) (pow_dvd_pow f.1 hj2)
        exact ih (middleER divs f.1 f.2 1 divs) (M * f.1 ^ f.2) hnew hMf
      · rw [outerLoop, outerLoopR, if_neg hlen, if_neg hlen]

/-- Below `2^64` the `u64` divisor buffer cannot wrap: the faithful enumerator
equals the exact reference enumerator whenever `p²·x² < 2^64`. -/
lemma get_divisors_eq_R (p x : Nat) (hp : 1 ≤ p) (hx : 1 ≤ x)
    (hb64 : p ^ 2 * x ^ 2 < 2 ^ 64) :
    get_divisors_p2x2 p x = get_divisors_p2x2R p x := by
  have hb : 0 < p ^ 2 * x ^ 2 := by positivity
  obtain ⟨hdvd, _⟩ := allFactors_facts p x hp hx
  unfold get_divisors_p2x2 get_divisors_p2x2R
  exact outerLoop_eq_R (p ^ 2 * x ^ 2) hb hb64 (allFactors p (factorize x)) [1] 1
    (by
      intro u hu
      rcases List.mem_singleton.mp hu with rfl
      exact one_dvd _)
    (by rw [one_mul]; exact hdvd)

/-- When `A` fits in 64 bits (so `A64 = A`) and `D` and `nx` fit in 64 bits, the
wrapped `u128` sums of the divisor scan are exact and the faithful scan equals the
exact reference scan. -/
lemma tryDivs_eq_R (n x A nx D target : Nat) (hD : D < 2 ^ 64) (hnx : nx < 2 ^ 64) :
    ∀ l, tryDivs n x A A nx D target l = tryDivsR n x A nx D target l := by
  have hpow : (2 : Nat) ^ 64 + 2 ^ 64 ≤ 2 ^ 128 := by norm_num
  intro l
  induction l with
  | nil => rfl
  | cons d1 rest ih =>
      simp only [tryDivs, tryDivsR]
      by_cases hc1 : nx < d1
      · rw [if_pos hc1, if_pos hc1]
        exact ih
      · have hle : d1 ≤ nx := not_lt.mp hc1
        have hd1e : (d1 + nx) % 2 ^ 128 = d1 + nx := Nat.mod_eq_of_lt (by omega)
        have hd2e : (D / d1 + nx) % 2 ^ 128 = D / d1 + nx := by
          have hdle : D / d1 ≤ D := Nat.div_le_self D d1
          exact Nat.mod_eq_of_lt (by omega)
        rw [if_neg hc1, if_neg hc1, hd1e, hd2e, ih]

/-- On the wrap-free range `n ≡ 1 (mod 4)`, `9 ≤ n ≤ 60000`, every quantity of the
search loop fits its machine type (`A < 2^64`, `n·x < 2^32`, `D < 2^64`, all
divisor entries below `2^64`), so the faithful loop equals the exact reference
loop over the whole window. -/
lemma searchLoop_eq_R (n : Nat) (h1 : n % 4 = 1) (h9 : 9 ≤ n) (h60 : n ≤ 60000) :
    ∀ (fuel x : Nat), x_min n ≤ x → x + fuel ≤ x_min n + 50001 →
      searchLoop n x fuel = searchLoopR n x fuel := by
  intro fuel
  induction fuel with
  | zero => intro x _ _; rfl
  | succ fuel ih =>
      intro x hxlo hxhi
      have hxn : n + 3 ≤ 4 * x := by
        unfold x_min at hxlo
        omega
      have hx65 : x ≤ 65000 := by
        unfold x_min at hxhi
        omega
      have hAlt : 4 * x - n < 2 ^ 64 := by
        have hc : (260000 : Nat) < 2 ^ 64 := by norm_num
        omega
      have hA0 : ¬ (4 * x - n = 0) := by omega
      have hAe : (4 * x + 2 ^ 128 - n) % 2 ^ 128 = 4 * x - n := by
        have hlt : 4 * x - n < 2 ^ 128 := by
          have hc : (260000 : Nat) < 2 ^ 128 := by norm_num
          omega
        have he : 4 * x + 2 ^ 128 - n = (4 * x - n) + 2 ^ 128 := by omega
        rw [he, Nat.add_mod_right]
        exact Nat.mod_eq_of_lt hlt
      have hA64 : (4 * x - n) % 2 ^ 64 = 4 * x - n := Nat.mod_eq_of_lt hAlt
      have hnx32 : n * x < 2 ^ 32 := by
        have hb : n * x ≤ 60000 * 65000 := Nat.mul_le_mul h60 hx65
        have hc : (60000 : Nat) * 65000 < 2 ^ 32 := by norm_num
        omega
      have hnx64 : n * x < 2 ^ 64 := by
        have hc : (2 : Nat) ^ 32 ≤ 2 ^ 64 := by norm_num
        omega
      have hD64 : n * x * (n * x) < 2 ^ 64 := by
        have hb : n * x * (n * x) < 2 ^ 32 * 2 ^ 32 :=
          Nat.mul_lt_mul_of_lt_of_lt hnx32 hnx32
        have hc : (2 : Nat) ^ 32 * 2 ^ 32 = 2 ^ 64 := by norm_num
        omega
      have hDe : n * x * (n * x) % 2 ^ 128 = n * x * (n * x) := by
        have hc : (2 : Nat) ^ 64 ≤ 2 ^ 128 := by norm_num
        exact Nat.mod_eq_of_lt (by omega)
      have hr : n * x % (4 * x - n) < 4 * x - n := Nat.mod_lt _ (by omega)
      have hr64 : n * x % (4 * x - n) % 2 ^ 64 = n * x % (4 * x - n) :=
        Nat.mod_eq_of_lt (by omega)
      have htgt2 : (4 * x - n + 2 ^ 64 - n * x % (4 * x - n)) % 2 ^ 64 =
          4 * x - n - n * x % (4 * x - n) := by
        have he : 4 * x - n + 2 ^ 64 - n * x % (4 * x - n) =
            (4 * x - n - n * x % (4 * x - n)) + 2 ^ 64 := by omega
        rw [he, Nat.add_mod_right]
        exact Nat.mod_eq_of_lt (by omega)
      have hdivs : get_divisors_p2x2 n x = get_divisors_p2x2R n x := by
        apply get_divisors_eq_R n x (by omega) (by omega)
        have he : n ^ 2 * x ^ 2 = n * x * (n * x) := by ring
        rw [he]
        exact hD64
      have htd := tryDivs_eq_R n x (4 * x - n) (n * x) (n * x * (n * x))
        ((4 * x - n - n * x % (4 * x - n)) % (4 * x - n)) hD64 hnx64
      have hstepL : searchLoop n x (fuel + 1) =
          (if (4 * x + 2 ^ 128 - n) % 2 ^ 128 = 0 then searchLoop n (x + 1) fuel
           else
             match
               tryDivs n x ((4 * x + 2 ^ 128 - n) % 2 ^ 128)
                 ((4 * x + 2 ^ 128 - n) % 2 ^ 128 % 2 ^ 64) (n * x)
                 (n * x * (n * x) % 2 ^ 128)
                 (((4 * x + 2 ^ 128 - n) % 2 ^ 128 % 2 ^ 64 + 2 ^ 64 -
                     n * x % ((4 * x + 2 ^ 128 - n) % 2 ^ 128) % 2 ^ 64) % 2 ^ 64 %
                   ((4 * x + 2 ^ 128 - n) % 2 ^ 128 % 2 ^ 64))
                 (get_divisors_p2x2 n x) with
             | some s => s
             | none => searchLoop n (x + 1) fuel) := rfl
      have hstepR : searchLoopR n x (fuel + 1) =
          (if 4 * x - n = 0 then searchLoopR n (x + 1) fuel
           else
             match tryDivsR n x (4 * x - n) (n * x) (n * x * (n * x))
                 ((4 * x - n - n * x % (4 * x - n)) % (4 * x - n))
                 (get_divisors_p2x2R n x) with
             | some s => s
             | none => searchLoopR n (x + 1) fuel) := rfl
      rw [hstepL, hstepR, hAe, hA64, hr64, htgt2, hDe, hdivs, htd]
      simp only [if_neg hA0]
      cases htry : tryDivsR n x (4 * x - n) (n * x) (n * x * (n * x))
          ((4 * x - n - n * x % (4 * x - n)) % (4 * x - n))
          (get_divisors_p2x2R n x) with
      | some s => rfl
      | none => exact ih (x + 1) (by omega) (by omega)

/-! ## Claim C2: exactness of the divisor enumerator -/

/-- Counterexample to C2 as stated for composite `n`: with `n = 6`, `x = 1` (well
within both capacities, and far below any wrap) the enumerator treats `6` like a
prime and produces `{1, 6, 36}`, not the nine divisors of `6²·1² = 36`. -/
theorem get_divisors_composite_counterexample :
    ¬ ((get_divisors_p2x2 6 1).toFinset = ((6 ^ 2 * 1 ^ 2 : Nat)).divisors) := by
  decide

/-- Exactness of the reference enumerator for prime `n` within the capacities. -/
lemma get_divisorsR_exact_of_prime (n x : Nat) (hn : n.Prime) (hx : 0 < x)
    (hω : x.primeFactors.card ≤ 63)
    (hcap : (n ^ 2 * x ^ 2).divisors.card ≤ 16384) :
    (get_divisors_p2x2R n x).toFinset = (n ^ 2 * x ^ 2).divisors := by
  obtain ⟨hmem, hpairne, hprod⟩ := allFactors_strong n x hn hx hω
  have hnd : ∀ pe ∈ allFactors n (factorize x), ¬ pe.1 ∣ 1 := by
    intro pe hpe hdvd
    exact (hmem pe hpe).1.ne_one (Nat.dvd_one.mp hdvd)
  have hbud : (1 * (((allFactors n (factorize x)).map
      (fun pe : Nat × Nat => pe.1 ^ pe.2)).prod)).divisors.card ≤ MAX_DIVS := by
    rw [one_mul, hprod]
    exact hcap
  have hres := outerLoopR_divisors (allFactors n (factorize x)) [1] 1 one_pos
    (by simp) (by simp)
    hmem hpairne hnd hbud
  have : (get_divisors_p2x2R n x).toFinset =
      (1 * (((allFactors n (factorize x)).map
        (fun pe : Nat × Nat => pe.1 ^ pe.2)).prod)).divisors := hres.1
  rw [one_mul, hprod] at this
  exact this

/-- Claim C2 (amended): for prime `n` and positive `x` with `n²·x² < 2^64` (so the
`u64` divisor entries cannot wrap) whose factorizations fit the fixed capacities —
at most 63 distinct prime factors of `x` and at most 16384 divisors of `n²·x²` —
the enumerator returns exactly the set of all positive divisors of `n²·x²`. -/
theorem get_divisors_exact_of_prime (n x : Nat) (hn : n.Prime) (hx : 0 < x)
    (hfit : n ^ 2 * x ^ 2 < 2 ^ 64)
    (hω : x.primeFactors.card ≤ 63)
    (hcap : (n ^ 2 * x ^ 2).divisors.card ≤ 16384) :
    (get_divisors_p2x2 n x).toFinset = (n ^ 2 * x ^ 2).divisors := by
  rw [get_divisors_eq_R n x hn.pos hx hfit]
  exact get_divisorsR_exact_of_prime n x hn hx hω hcap

set_option maxRecDepth 100000 in
/-- Witness for (amended) C2 at `n = 5`, `x = 12`: the enumerator produces exactly
the 45 divisors of `5²·12² = 3600`. -/
theorem get_divisors_exact_of_prime_witness :
    Nat.Prime 5 ∧ 0 < 12 ∧ ((5 : Nat) ^ 2 * 12 ^ 2 < 2 ^ 64) ∧
      (12 : Nat).primeFactors.card ≤ 63 ∧
      ((5 : Nat) ^ 2 * 12 ^ 2).divisors.card ≤ 16384 ∧
      (get_divisors_p2x2 5 12).toFinset = ((5 : Nat) ^ 2 * 12 ^ 2).divisors := by
  have hω : (12 : Nat).primeFactors.card ≤ 63 := by
    have hsub : (12 : Nat).primeFactors ⊆ Finset.range 13 := by
      intro p hp
      exact Finset.mem_range.mpr (by have := Nat.le_of_mem_primeFactors hp; omega)
    have hle := Finset.card_le_card hsub
    rw [Finset.card_range] at hle
    omega
  have hcap : ((5 : Nat) ^ 2 * 12 ^ 2).divisors.card ≤ 16384 := by decide
  exact ⟨by decide, by decide, by decide, hω, hcap,
    get_divisors_exact_of_prime 5 12 (by decide) (by decide) (by decide) hω hcap⟩

/-! ## Claim C5: completeness of the factorization step for 64-bit inputs -/

/-- Claim C5: for every positive 64-bit `x` the factorization step yields the
complete prime factorization of `x` — prime bases in strictly increasing order with
positive exponents whose power product is exactly `x` — and `x` has at most 63
distinct prime factors, so the fixed capacity of the factor table is never
exceeded and the overflow condition never arises. -/
theorem factorize_complete (x : Nat) (hx : 0 < x) (hx64 : x < 2 ^ 64) :
    (∀ pe ∈ factorize x, pe.1.Prime ∧ 0 < pe.2) ∧
    List.Pairwise (· < ·) ((factorize x).map Prod.fst) ∧
    (((factorize x).map (fun pe : Nat × Nat => pe.1 ^ pe.2)).prod = x) ∧
    x.primeFactors.card ≤ 63 := by
  have hω : x.primeFactors.card ≤ 63 := by
    by_contra hc
    push_neg at hc
    have hdvd := Nat.prod_primeFactors_dvd x
    have hle : (2 : ℕ) ^ x.primeFactors.card ≤ ∏ p ∈ x.primeFactors, p := by
      rw [← Finset.prod_const]
      apply Finset.prod_le_prod
      · intro i _
        omega
      · intro i hi
        exact (Nat.prime_of_mem_primeFactors hi).two_le
    have hx2 : ∏ p ∈ x.primeFactors, p ≤ x := Nat.le_of_dvd (by omega) hdvd
    have hpow : (2 : ℕ) ^ 64 ≤ 2 ^ x.primeFactors.card :=
      Nat.pow_le_pow_right (by omega) (by omega)
    omega
  obtain ⟨hmem, hpair, hprod⟩ := factorize_strong x hx hω
  exact ⟨hmem, hpair, hprod, hω⟩

/-- Witness for C5 at `x = 12`. -/
theorem factorize_complete_witness :
    0 < 12 ∧ 12 < 2 ^ 64 ∧
      ((∀ pe ∈ factorize 12, pe.1.Prime ∧ 0 < pe.2) ∧
        List.Pairwise (· < ·) ((factorize 12).map Prod.fst) ∧
        (((factorize 12).map (fun pe : Nat × Nat => pe.1 ^ pe.2)).prod = 12) ∧
        (12 : Nat).primeFactors.card ≤ 63) :=
  ⟨by decide, by decide, factorize_complete 12 (by decide) (by decide)⟩

/-! ## Soundness of the search: the exact identity behind accepted candidates -/

/-- The algebraic heart of the divisor search: if `A + n = 4x`, `d1·d2 = (nx)²`,
`A·y = d1 + nx` and `A·z = d2 + nx` with `A > 0`, then `(x, y, z)` satisfies the
exact Erdős–Straus identity. -/
lemma erdos_identity (A n x y z d1 d2 : Nat) (hA : 0 < A) (hAn : A + n = 4 * x)
    (hd : d1 * d2 = (n * x) * (n * x))
    (hy : A * y = d1 + n * x) (hz : A * z = d2 + n * x) :
    4 * (x * y * z) = n * (x * y + y * z + x * z) := by
  have hAA : 0 < A * A := Nat.mul_pos hA hA
  apply Nat.eq_of_mul_eq_mul_left hAA
  zify at hy hz hd hAn ⊢
  have e1 : (A : ℤ) * A * (4 * (x * y * z)) = 4 * x * ((A * y) * (A * z)) := by ring
  have e2 : (A : ℤ) * A * (n * (x * y + y * z + x * z)) =
      n * x * A * (A * y) + n * ((A * y) * (A * z)) + n * x * A * (A * z) := by ring
  rw [e1, e2, hy, hz]
  linear_combination (A : ℤ) * hd -
    (((d1 : ℤ) + n * x) * ((d2 : ℤ) + n * x)) * hAn

/-- The Erdős–Straus identity is invariant under swapping the last two values. -/
lemma identity_swap (n x y z : Nat)
    (h : 4 * (x * y * z) = n * (x * y + y * z + x * z)) :
    4 * (x * z * y) = n * (x * z + z * y + x * y) := by
  zify at h ⊢
  linear_combination h

/-- A sorted accepted candidate yields a sound solution. -/
lemma accept_sound (n x u v : Nat) (hx : 0 < x) (hxu : x ≤ u) (huv : u ≤ v)
    (hid : 4 * (x * u * v) = n * (x * u + u * v + x * v)) :
    (set_sol x u v).found = true ∧ 0 < (set_sol x u v).a ∧
      (set_sol x u v).a ≤ (set_sol x u v).b ∧ (set_sol x u v).b ≤ (set_sol x u v).c ∧
      4 * ((set_sol x u v).a * (set_sol x u v).b * (set_sol x u v).c) =
        n * ((set_sol x u v).a * (set_sol x u v).b +
             (set_sol x u v).b * (set_sol x u v).c +
             (set_sol x u v).a * (set_sol x u v).c) := by
  rw [set_sol_of_sorted x u v hxu huv]
  exact ⟨rfl, hx, hxu, huv, hid⟩

/-- The congruence conditions checked by the scan force the exact identity for the
derived candidate `(x, (d1 + nx)/A, (d2 + nx)/A)`. -/
lemma candidate_identity (n x A d1 : Nat) (hA : 0 < A) (hAn : A + n = 4 * x)
    (hdvd : d1 ∣ (n * x) * (n * x))
    (h2 : d1 % A = (A - n * x % A) % A)
    (h3 : (((n * x) * (n * x)) / d1 + n * x) % A = 0) :
    4 * (x * ((d1 + n * x) / A) * ((((n * x) * (n * x)) / d1 + n * x) / A)) =
      n * (x * ((d1 + n * x) / A) +
        ((d1 + n * x) / A) * ((((n * x) * (n * x)) / d1 + n * x) / A) +
        x * ((((n * x) * (n * x)) / d1 + n * x) / A)) := by
  have hd2 : d1 * (((n * x) * (n * x)) / d1) = (n * x) * (n * x) :=
    Nat.mul_div_cancel' hdvd
  have hmodA : (d1 + n * x) % A = 0 := by
    have hr : n * x % A < A := Nat.mod_lt _ hA
    have hsub : (A - n * x % A) % A + n * x % A = A ∨
        (A - n * x % A) % A + n * x % A = 0 := by
      rcases Nat.eq_zero_or_pos (n * x % A) with h0 | h0
      · right
        rw [h0, Nat.sub_zero, Nat.mod_self]
      · left
        rw [Nat.mod_eq_of_lt (by omega)]
        omega
    calc (d1 + n * x) % A = (d1 % A + n * x % A) % A := by
          rw [Nat.mod_add_mod, Nat.add_mod_mod]
      _ = ((A - n * x % A) % A + n * x % A) % A := by rw [h2]
      _ = 0 := by
          rcases hsub with h | h
          · rw [h, Nat.mod_self]
          · rw [h, Nat.zero_mod]
  have hy : A * ((d1 + n * x) / A) = d1 + n * x :=
    Nat.mul_div_cancel' (Nat.dvd_of_mod_eq_zero hmodA)
  have hz : A * ((((n * x) * (n * x)) / d1 + n * x) / A) =
      ((n * x) * (n * x)) / d1 + n * x :=
    Nat.mul_div_cancel' (Nat.dvd_of_mod_eq_zero h3)
  exact erdos_identity A n x _ _ d1 (((n * x) * (n * x)) / d1) hA hAn hd2 hy hz

/-- Soundness of the per-`x` divisor scan: whenever `tryDivsR` accepts, the returned
solution is found, sorted, positive, and satisfies the exact identity. -/
lemma tryDivsR_sound (n x A target : Nat) (hA : 0 < A) (hAn : A + n = 4 * x)
    (htarget : target = (A - n * x % A) % A) (hx : 0 < x) :
    ∀ (l : List Nat), (∀ d1 ∈ l, 0 < d1 ∧ d1 ∣ (n * x) * (n * x)) →
    ∀ (s : Solution), tryDivsR n x A (n * x) ((n * x) * (n * x)) target l = some s →
      s.found = true ∧ 0 < s.a ∧ s.a ≤ s.b ∧ s.b ≤ s.c ∧
        4 * (s.a * s.b * s.c) = n * (s.a * s.b + s.b * s.c + s.a * s.c) := by
  intro l
  induction l with
  | nil => intro _ s hs; simp [tryDivsR] at hs
  | cons d1 rest ih =>
      intro hl s hs
      have hd1 := hl d1 (List.mem_cons_self d1 rest)
      have hrest : ∀ d ∈ rest, 0 < d ∧ d ∣ (n * x) * (n * x) :=
        fun d hd => hl d (List.mem_cons_of_mem d1 hd)
      simp only [tryDivsR] at hs
      split_ifs at hs with h1 h2 h3 h4 h5 h6 h7 h8
      · exact ih hrest s hs
      · exact ih hrest s hs
      · exact ih hrest s hs
      · exact ih hrest s hs
      · exact ih hrest s hs
      · -- accepted candidate, swapped so that the smaller of the pair comes first
        obtain rfl : _ = s := Option.some.inj hs
        exact accept_sound n x _ _ hx (not_lt.mp h6) (le_of_lt h5)
          (identity_swap n x _ _ (candidate_identity n x A d1 hA hAn hd1.2
            (htarget ▸ not_not.mp h2) (not_not.mp h3)))
      · exact ih hrest s hs
      · -- accepted candidate, already in order
        obtain rfl : _ = s := Option.some.inj hs
        exact accept_sound n x _ _ hx (not_lt.mp h4) (not_lt.mp h5)
          (candidate_identity n x A d1 hA hAn hd1.2 (htarget ▸ not_not.mp h2)
            (not_not.mp h3))
      · exact ih hrest s hs

/-- Soundness of the whole search loop: a found result is positive, sorted and
satisfies the exact identity. -/
lemma searchLoopR_sound (n : Nat) (hn : 1 ≤ n) :
    ∀ (fuel x : Nat), 1 ≤ x → (searchLoopR n x fuel).found = true →
      0 < (searchLoopR n x fuel).a ∧
      (searchLoopR n x fuel).a ≤ (searchLoopR n x fuel).b ∧
      (searchLoopR n x fuel).b ≤ (searchLoopR n x fuel).c ∧
      4 * ((searchLoopR n x fuel).a * (searchLoopR n x fuel).b * (searchLoopR n x fuel).c) =
        n * ((searchLoopR n x fuel).a * (searchLoopR n x fuel).b +
             (searchLoopR n x fuel).b * (searchLoopR n x fuel).c +
             (searchLoopR n x fuel).a * (searchLoopR n x fuel).c) := by
  intro fuel
  induction fuel with
  | zero =>
      intro x hx hfound
      simp [searchLoopR, notFound] at hfound
  | succ fuel ih =>
      intro x hx hfound
      have hstep : searchLoopR n x (fuel + 1) =
          if 4 * x - n = 0 then searchLoopR n (x + 1) fuel
          else
            match tryDivsR n x (4 * x - n) (n * x) ((n * x) * (n * x))
                (((4 * x - n) - (n * x) % (4 * x - n)) % (4 * x - n))
                (get_divisors_p2x2R n x) with
            | some s => s
            | none => searchLoopR n (x + 1) fuel := rfl
      rw [hstep] at hfound ⊢
      by_cases hA0 : 4 * x - n = 0
      · rw [if_pos hA0] at hfound ⊢
        exact ih (x + 1) (by omega) hfound
      · rw [if_neg hA0] at hfound ⊢
        cases htry : tryDivsR n x (4 * x - n) (n * x) ((n * x) * (n * x))
            (((4 * x - n) - (n * x) % (4 * x - n)) % (4 * x - n))
            (get_divisors_p2x2R n x) with
        | none =>
            rw [htry] at hfound
            exact ih (x + 1) (by omega) hfound
        | some s =>
            have hdivs : ∀ d1 ∈ get_divisors_p2x2R n x,
                0 < d1 ∧ d1 ∣ (n * x) * (n * x) := by
              intro d1 hd1
              obtain ⟨hpos, hdvd⟩ := get_divisors_dvd n x hn hx d1 hd1
              refine ⟨hpos, ?_⟩
              have hrw : n ^ 2 * x ^ 2 = (n * x) * (n * x) := by ring
              rw [← hrw]
              exact hdvd
            obtain ⟨_, hres⟩ := tryDivsR_sound n x (4 * x - n)
              (((4 * x - n) - (n * x) % (4 * x - n)) % (4 * x - n))
              (by omega) (by omega) rfl (by omega)
              (get_divisors_p2x2R n x) hdivs s htry
            exact hres

/-! ## Claim C1: every found solution is sorted, positive and exact -/

/-- Counterexample to C1 as stated: at `n = 2^64 - 1` (a `u64` input with
`n ≡ 3 (mod 4)`) the `u64` sum `n + 1` wraps to `0`, so `q = 0` and the solver
returns `found = true` with the triple `(0, 0, 0)`, violating `0 < a`. -/
theorem solve_wrap_counterexample :
    (solve_erdos_straus (2 ^ 64 - 1)).found = true ∧
      ¬ 0 < (solve_erdos_straus (2 ^ 64 - 1)).a := by
  decide

/-- Claim C1 (amended): whenever `solve_erdos_straus n` reports `found = true` on a
`u64` input that avoids the wrapping regimes — any `n < 2^64 - 1` outside the
`n ≡ 1 (mod 4)` search branch, and `n ≤ 60000` within it (where `A`, `D = (nx)²`
and all divisor entries fit their machine types) — the returned triple satisfies
`0 < a ≤ b ≤ c` and the exact unbounded-integer identity
`4·a·b·c = n·(a·b + b·c + a·c)`. -/
theorem solve_found_invariant (n : Nat)
    (hdom : (n % 4 ≠ 1 ∧ n < 2 ^ 64 - 1) ∨ (n % 4 = 1 ∧ n ≤ 60000))
    (h : (solve_erdos_straus n).found = true) :
    0 < (solve_erdos_straus n).a ∧
      (solve_erdos_straus n).a ≤ (solve_erdos_straus n).b ∧
      (solve_erdos_straus n).b ≤ (solve_erdos_straus n).c ∧
      4 * ((solve_erdos_straus n).a * (solve_erdos_straus n).b *
            (solve_erdos_straus n).c) =
        n * ((solve_erdos_straus n).a * (solve_erdos_straus n).b +
             (solve_erdos_straus n).b * (solve_erdos_straus n).c +
             (solve_erdos_straus n).a * (solve_erdos_straus n).c) := by
  by_cases h1 : n ≤ 1
  · exfalso
    unfold solve_erdos_straus at h
    rw [if_pos h1] at h
    simp [notFound] at h
  by_cases h2 : n = 2
  · subst h2; decide
  by_cases h3 : n = 3
  · subst h3; decide
  by_cases h4 : n = 4
  · subst h4; decide
  by_cases h5 : n = 5
  · subst h5; decide
  by_cases h6 : n % 2 = 0
  · have hs : solve_erdos_straus n = set_sol (n / 2) (2 * (n / 2)) (2 * (n / 2)) := by
      unfold solve_erdos_straus
      rw [if_neg h1, if_neg h2, if_neg h3, if_neg h4, if_neg h5, if_pos h6]
    have hm : 2 * (n / 2) = n := by omega
    rw [hs, set_sol_of_sorted _ _ _ (by omega) (by omega)]
    refine ⟨by show 0 < n / 2; omega, by show n / 2 ≤ 2 * (n / 2); omega,
      by show 2 * (n / 2) ≤ 2 * (n / 2); omega, ?_⟩
    show 4 * (n / 2 * (2 * (n / 2)) * (2 * (n / 2))) =
      n * (n / 2 * (2 * (n / 2)) + 2 * (n / 2) * (2 * (n / 2)) + n / 2 * (2 * (n / 2)))
    set k := n / 2 with hk
    rw [← hm]
    ring
  by_cases h7 : n % 4 = 3
  · have hlt : n < 2 ^ 64 - 1 := by
      rcases hdom with ⟨_, hq⟩ | ⟨hq, _⟩
      · exact hq
      · omega
    have hw : (n + 1) % 2 ^ 64 = n + 1 := Nat.mod_eq_of_lt (by omega)
    have hs : solve_erdos_straus n =
        set_sol ((n + 1) / 4) (2 * (n * ((n + 1) / 4))) (2 * (n * ((n + 1) / 4))) := by
      unfold solve_erdos_straus
      rw [if_neg h1, if_neg h2, if_neg h3, if_neg h4, if_neg h5, if_neg h6, if_pos h7,
        hw]
    have hq4 : 4 * ((n + 1) / 4) = n + 1 := by omega
    have hq1 : 1 ≤ (n + 1) / 4 := by omega
    have hle : (n + 1) / 4 ≤ 2 * (n * ((n + 1) / 4)) := by
      calc (n + 1) / 4 ≤ n * ((n + 1) / 4) := Nat.le_mul_of_pos_left _ (by omega)
        _ ≤ 2 * (n * ((n + 1) / 4)) := Nat.le_mul_of_pos_left _ (by omega)
    rw [hs, set_sol_of_sorted _ _ _ hle le_rfl]
    refine ⟨by show 0 < (n + 1) / 4; omega, hle,
      by show 2 * (n * ((n + 1) / 4)) ≤ 2 * (n * ((n + 1) / 4)); omega, ?_⟩
    show 4 * ((n + 1) / 4 * (2 * (n * ((n + 1) / 4))) * (2 * (n * ((n + 1) / 4)))) =
      n * ((n + 1) / 4 * (2 * (n * ((n + 1) / 4))) +
        2 * (n * ((n + 1) / 4)) * (2 * (n * ((n + 1) / 4))) +
        (n + 1) / 4 * (2 * (n * ((n + 1) / 4))))
    set q := (n + 1) / 4 with hqdef
    zify at hq4 ⊢
    linear_combination (4 * (n : ℤ) ^ 2 * q ^ 2) * hq4
  · have h41 : n % 4 = 1 := by omega
    have h60 : n ≤ 60000 := by
      rcases hdom with ⟨hq, _⟩ | ⟨_, hq⟩
      · exact absurd h41 hq
      · exact hq
    have h9 : 9 ≤ n := by omega
    have hw : (n + 3) % 2 ^ 64 = n + 3 := Nat.mod_eq_of_lt (by omega)
    have hs : solve_erdos_straus n = searchLoop n (x_min n) 50001 := by
      unfold solve_erdos_straus
      rw [if_neg h1, if_neg h2, if_neg h3, if_neg h4, if_neg h5, if_neg h6, if_neg h7,
        hw]
      rfl
    rw [hs, searchLoop_eq_R n h41 h9 h60 50001 (x_min n) le_rfl le_rfl] at h ⊢
    exact searchLoopR_sound n (by omega) 50001 (x_min n) (by unfold x_min; omega) h

/-- Witness for (amended) C1 at `n = 2`. -/
theorem solve_found_invariant_witness :
    ((2 % 4 ≠ 1 ∧ 2 < 2 ^ 64 - 1) ∨ (2 % 4 = 1 ∧ 2 ≤ 60000)) ∧
      (solve_erdos_straus 2).found = true ∧
      (0 < (solve_erdos_straus 2).a ∧
        (solve_erdos_straus 2).a ≤ (solve_erdos_straus 2).b ∧
        (solve_erdos_straus 2).b ≤ (solve_erdos_straus 2).c ∧
        4 * ((solve_erdos_straus 2).a * (solve_erdos_straus 2).b *
              (solve_erdos_straus 2).c) =
          2 * ((solve_erdos_straus 2).a * (solve_erdos_straus 2).b +
               (solve_erdos_straus 2).b * (solve_erdos_straus 2).c +
               (solve_erdos_straus 2).a * (solve_erdos_straus 2).c)) :=
  ⟨Or.inl ⟨by decide, by decide⟩, by decide,
    solve_found_invariant 2 (Or.inl ⟨by decide, by decide⟩) (by decide)⟩

/-! ## Claim C3: the search is first-match over the window in order -/

/-- The per-`x` scan is exactly a first-match (`findSome?`) over the divisor list in
construction order, with the spec-side acceptance test. -/
lemma tryDivsR_eq_findSome (n x : Nat) :
    ∀ (l : List Nat),
      tryDivsR n x (4 * x - n) (n * x) ((n * x) * (n * x))
          (((4 * x - n) - (n * x) % (4 * x - n)) % (4 * x - n)) l =
        l.findSome? (specAccept n x) := by
  intro l
  induction l with
  | nil => simp [tryDivsR]
  | cons d1 rest ih =>
      rw [List.findSome?_cons]
      simp only [tryDivsR, specAccept]
      split_ifs <;> first | rfl | exact ih

/-- The search loop starting at `x` with `k` window positions left is exactly a
first-match over the remaining window, provided `4x > n` throughout (so the
`A == 0` skip branch never fires). -/
lemma searchLoopR_eq_findSome (n : Nat) :
    ∀ (k x : Nat), n < 4 * x →
      searchLoopR n x k =
        match ((List.range k).map (fun i => x + i)).findSome?
            (fun x0 => (get_divisors_p2x2R n x0).findSome? (specAccept n x0)) with
        | some s => s
        | none => notFound := by
  intro k
  induction k with
  | zero => intro x hx; simp [searchLoopR]
  | succ k ih =>
      intro x hx
      have hA0 : ¬ (4 * x - n = 0) := by omega
      have hstep : searchLoopR n x (k + 1) =
          if 4 * x - n = 0 then searchLoopR n (x + 1) k
          else
            match tryDivsR n x (4 * x - n) (n * x) ((n * x) * (n * x))
                (((4 * x - n) - (n * x) % (4 * x - n)) % (4 * x - n))
                (get_divisors_p2x2R n x) with
            | some s => s
            | none => searchLoopR n (x + 1) k := rfl
      rw [hstep, if_neg hA0, tryDivsR_eq_findSome n x]
      have hwin : (List.range (k + 1)).map (fun i => x + i) =
          x :: (List.range k).map (fun i => (x + 1) + i) := by
        rw [List.range_succ_eq_map, List.map_cons, List.map_map]
        have hfe : (fun i => x + i) ∘ Nat.succ = fun i => (x + 1) + i := by
          funext i
          show x + (i + 1) = (x + 1) + i
          omega
        rw [Nat.add_zero, hfe]
      rw [hwin, List.findSome?_cons]
      cases hFx : (get_divisors_p2x2R n x).findSome? (specAccept n x) with
      | some s => rfl
      | none => exact ih (x + 1) (by omega)

/-- Counterexample to C3 as stated: at `n = 2^64 - 3` (a `u64` input with
`n ≡ 1 (mod 4)` and `n > 5`) the `u64` sum `n + 3` wraps to `0`, so the solver
iterates `x` over `[0, 50000]` — not over the claimed window starting at
`(n + 3) / 4 = 2^62`. -/
theorem search_window_wrap_counterexample :
    (2 ^ 64 - 3) % 4 = 1 ∧ 5 < 2 ^ 64 - 3 ∧
      solve_erdos_straus (2 ^ 64 - 3) = searchLoop (2 ^ 64 - 3) 0 50001 ∧
      x_min (2 ^ 64 - 3) = 2 ^ 62 ∧ (0 : Nat) ≠ 2 ^ 62 := by
  refine ⟨by decide, by decide, ?_, by decide, by decide⟩
  unfold solve_erdos_straus
  rw [if_neg (by decide), if_neg (by decide), if_neg (by decide), if_neg (by decide),
    if_neg (by decide), if_neg (by decide), if_neg (by decide)]
  rw [show (2 ^ 64 - 3 + 3) % 2 ^ 64 / 4 = 0 from by decide]

/-- Claim C3 (amended): for `n ≡ 1 (mod 4)` with `5 < n ≤ 60000` (a wrap-free
range), the solver is exactly the first-match policy described by the spec: it
scans the closed inclusive window `[(n+3)/4, (n+3)/4 + 50000]` in increasing
order, tries the divisors of `n²x²` in the enumerator's construction order,
accepts the first candidate `(x, y, z)` — `y = (d1 + nx)/A`, `z = (d2 + nx)/A`,
reordered so `y ≤ z`, both at least `x` — that passes the modular verifier, and
returns not-found if the whole window is exhausted. -/
theorem search_first_match (n : Nat) (h1 : n % 4 = 1) (h5 : 5 < n)
    (h60 : n ≤ 60000) :
    solve_erdos_straus n = specSearch n := by
  have h9 : 9 ≤ n := by omega
  have hw : (n + 3) % 2 ^ 64 = n + 3 := Nat.mod_eq_of_lt (by omega)
  have hs : solve_erdos_straus n = searchLoop n (x_min n) 50001 := by
    unfold solve_erdos_straus
    rw [if_neg (by omega), if_neg (by omega), if_neg (by omega), if_neg (by omega),
      if_neg (by omega), if_neg (by omega), if_neg (by omega), hw]
    rfl
  rw [hs, searchLoop_eq_R n h1 h9 h60 50001 (x_min n) le_rfl le_rfl,
    searchLoopR_eq_findSome n 50001 (x_min n) (by unfold x_min; omega)]
  unfold specSearch specWindow
  cases hW : ((List.range 50001).map (fun i => x_min n + i)).findSome?
      (fun x0 => (get_divisors_p2x2R n x0).findSome? (specAccept n x0)) with
  | some s => rfl
  | none => rfl

/-- Witness for (amended) C3 at `n = 13`. -/
theorem search_first_match_witness :
    13 % 4 = 1 ∧ 5 < 13 ∧ 13 ≤ 60000 ∧ solve_erdos_straus 13 = specSearch 13 :=
  ⟨by decide, by decide, by decide,
    search_first_match 13 (by decide) (by decide) (by decide)⟩

/-! ## Claim C6: the modular verifier -/

/-- One pass of the verifier loop agrees with the plain congruence modulo `m`. -/
lemma verifyMod_iff (n a b c m : Nat) :
    verifyMod n a b c m = true ↔
      (4 * a * b * c) % m = (n * (a * b + b * c + a * c)) % m := by
  have ha : a % m ≡ a [MOD m] := Nat.mod_modEq a m
  have hb : b % m ≡ b [MOD m] := Nat.mod_modEq b m
  have hc : c % m ≡ c [MOD m] := Nat.mod_modEq c m
  have hn : n % m ≡ n [MOD m] := Nat.mod_modEq n m
  have e1 : ((4 * (a % m) % m) * (b % m) % m) * (c % m) % m = (4 * a * b * c) % m := by
    have s1 : 4 * (a % m) % m ≡ 4 * a [MOD m] :=
      (Nat.mod_modEq _ m).trans ((Nat.ModEq.refl 4).mul ha)
    have s2 : (4 * (a % m) % m) * (b % m) % m ≡ 4 * a * b [MOD m] :=
      (Nat.mod_modEq _ m).trans (s1.mul hb)
    exact ((s2.mul hc).trans (Nat.ModEq.refl _))
  have e2 : (n % m) * (((b % m) * (c % m) % m + (a % m) * (c % m) % m +
      (a % m) * (b % m) % m) % m) % m = (n * (a * b + b * c + a * c)) % m := by
    have sbc : (b % m) * (c % m) % m ≡ b * c [MOD m] :=
      (Nat.mod_modEq _ m).trans (hb.mul hc)
    have sac : (a % m) * (c % m) % m ≡ a * c [MOD m] :=
      (Nat.mod_modEq _ m).trans (ha.mul hc)
    have sab : (a % m) * (b % m) % m ≡ a * b [MOD m] :=
      (Nat.mod_modEq _ m).trans (ha.mul hb)
    have ssum : ((b % m) * (c % m) % m + (a % m) * (c % m) % m +
        (a % m) * (b % m) % m) % m ≡ b * c + a * c + a * b [MOD m] :=
      (Nat.mod_modEq _ m).trans ((sbc.add sac).add sab)
    have sfin : (n % m) * (((b % m) * (c % m) % m + (a % m) * (c % m) % m +
        (a % m) * (b % m) % m) % m) ≡ n * (b * c + a * c + a * b) [MOD m] :=
      hn.mul ssum
    have hcomm : n * (b * c + a * c + a * b) = n * (a * b + b * c + a * c) := by ring
    calc (n % m) * (((b % m) * (c % m) % m + (a % m) * (c % m) % m +
            (a % m) * (b % m) % m) % m) % m
        = (n * (b * c + a * c + a * b)) % m := sfin.trans (Nat.ModEq.refl _)
      _ = (n * (a * b + b * c + a * c)) % m := by rw [hcomm]
  simp only [verifyMod, beq_iff_eq]
  rw [e1, e2]

/-- Claim C6: `verify128(n, a, b, c)` passes iff
`4·a·b·c ≡ n·(a·b + b·c + a·c)` modulo each of the four fixed primes
`1000000007`, `1000000009`, `998244353`, `999999937`; a mismatch at any single
modulus rejects. -/
theorem verify128_iff_mod_primes (n a b c : Nat) :
    verify128 n a b c = true ↔
      ∀ m ∈ mods, (4 * a * b * c) % m = (n * (a * b + b * c + a * c)) % m := by
  rw [verify128, List.all_eq_true]
  constructor
  · intro h m hm
    exact (verifyMod_iff n a b c m).mp (h m hm)
  · intro h m hm
    exact (verifyMod_iff n a b c m).mpr (h m hm)

/-! ## Claim C7: positivity of `A = 4x - n` on the search window -/

/-- Claim C7: for `n ≡ 1 (mod 4)` with `n ≥ 9` and every `x` in the search window
`[x_min n, x_max n]`, the quantity `A = 4x - n` is at least `3`, hence nonzero:
the `A == 0` skip branch cannot fire and every `% A` in the loop body divides by a
nonzero value. -/
theorem window_A_positive (n x : Nat) (h1 : n % 4 = 1) (_h9 : 9 ≤ n)
    (hlo : x_min n ≤ x) (hhi : x ≤ x_max n) :
    3 ≤ 4 * x - n ∧ 4 * x - n ≠ 0 := by
  unfold x_min at hlo
  unfold x_max x_min at hhi
  omega

/-- Witness for C7 at `n = 13`, `x = 4`. -/
theorem window_A_positive_witness :
    13 % 4 = 1 ∧ 9 ≤ 13 ∧ x_min 13 ≤ 4 ∧ 4 ≤ x_max 13 ∧
      (3 ≤ 4 * 4 - 13 ∧ 4 * 4 - 13 ≠ 0) :=
  ⟨by decide, by decide, by decide, by decide,
    window_A_positive 13 4 (by decide) (by decide) (by decide) (by decide)⟩

/-! ## Claim C8: the solver finds an exact solution for `n = 13` -/

/-- Claim C8: `solve_erdos_straus 13` returns `found = true` and its triple
satisfies `4·a·b·c = 13·(a·b + b·c + a·c)` exactly. -/
theorem solve_13_found_and_exact :
    (solve_erdos_straus 13).found = true ∧
      4 * ((solve_erdos_straus 13).a * (solve_erdos_straus 13).b *
            (solve_erdos_straus 13).c) =
        13 * ((solve_erdos_straus 13).a * (solve_erdos_straus 13).b +
              (solve_erdos_straus 13).b * (solve_erdos_straus 13).c +
              (solve_erdos_straus 13).a * (solve_erdos_straus 13).c) := by
  decide

/-! ## Claim C4: closed forms for even `n` and `n ≡ 3 (mod 4)` -/

/-- Counterexample to C4 as stated: at `n = 2^64 - 1` (a `u64` input with
`n ≡ 3 (mod 4)` and `n ≥ 7`) the `u64` sum `n + 1` wraps to `0`, so the solver
returns the triple `(0, 0, 0)` rather than the claimed `(q, 2nq, 2nq)` with
`q = (n+1)/4 = 2^62`. -/
theorem solve_3mod4_wrap_counterexample :
    (2 ^ 64 - 1) % 4 = 3 ∧ 7 ≤ 2 ^ 64 - 1 ∧
      solve_erdos_straus (2 ^ 64 - 1) ≠
        ⟨((2 ^ 64 - 1) + 1) / 4, 2 * ((2 ^ 64 - 1) * (((2 ^ 64 - 1) + 1) / 4)),
          2 * ((2 ^ 64 - 1) * (((2 ^ 64 - 1) + 1) / 4)), true⟩ := by
  refine ⟨by decide, by decide, by decide⟩

/-- Claim C4 (amended): every even `n` with `2 ≤ n < 2^64 - 1` is solved with the
triple `(n/2, n, n)` (the tabulated `n = 2, 4` included), and every
`n ≡ 3 (mod 4)` with `3 ≤ n < 2^64 - 1` is solved, for `n ≥ 7` with the triple
`(q, 2nq, 2nq)` where `q = (n+1)/4`; the bound excludes `n = 2^64 - 1`, where the
`u64` sum `n + 1` wraps. -/
theorem solve_closed_forms (n : Nat) (h2 : 2 ≤ n) (hlt : n < 2 ^ 64 - 1)
    (h : n % 2 = 0 ∨ n % 4 = 3) :
    (solve_erdos_straus n).found = true ∧
      (n % 2 = 0 → solve_erdos_straus n = ⟨n / 2, n, n, true⟩) ∧
      (n % 4 = 3 → 7 ≤ n →
        solve_erdos_straus n =
          ⟨(n + 1) / 4, 2 * (n * ((n + 1) / 4)), 2 * (n * ((n + 1) / 4)), true⟩) := by
  rcases h with he | h3
  · by_cases hn2 : n = 2
    · subst hn2
      exact ⟨by decide, fun _ => by decide, fun hc => by omega⟩
    by_cases hn4 : n = 4
    · subst hn4
      exact ⟨by decide, fun _ => by decide, fun hc => by omega⟩
    have h6 : 6 ≤ n := by omega
    have hsolve : solve_erdos_straus n = ⟨n / 2, n, n, true⟩ := by
      unfold solve_erdos_straus
      rw [if_neg (by omega), if_neg (by omega), if_neg (by omega), if_neg (by omega),
        if_neg (by omega), if_pos he, set_sol_of_sorted _ _ _ (by omega) (by omega)]
      have hm : 2 * (n / 2) = n := by omega
      rw [hm]
    exact ⟨by rw [hsolve], fun _ => hsolve, fun hc => by omega⟩
  · by_cases hn3 : n = 3
    · subst hn3
      exact ⟨by decide, fun hc => by omega, fun _ hc => by omega⟩
    have h7 : 7 ≤ n := by omega
    have hw : (n + 1) % 2 ^ 64 = n + 1 := Nat.mod_eq_of_lt (by omega)
    have hq1 : 2 ≤ (n + 1) / 4 := by omega
    have hle : (n + 1) / 4 ≤ 2 * (n * ((n + 1) / 4)) := by nlinarith
    have hsolve : solve_erdos_straus n =
        ⟨(n + 1) / 4, 2 * (n * ((n + 1) / 4)), 2 * (n * ((n + 1) / 4)), true⟩ := by
      unfold solve_erdos_straus
      rw [if_neg (by omega), if_neg (by omega), if_neg (by omega), if_neg (by omega),
        if_neg (by omega), if_neg (by omega), if_pos h3, hw,
        set_sol_of_sorted _ _ _ hle le_rfl]
    exact ⟨by rw [hsolve], fun hc => by omega, fun _ _ => hsolve⟩

/-- Witness for (amended) C4 at `n = 7`: the formula triple is `(2, 28, 28)`. -/
theorem solve_closed_forms_witness :
    2 ≤ 7 ∧ 7 < 2 ^ 64 - 1 ∧ (7 % 2 = 0 ∨ 7 % 4 = 3) ∧
      solve_erdos_straus 7 = ⟨2, 28, 28, true⟩ :=
  ⟨by decide, by decide, Or.inr (by decide),
    (solve_closed_forms 7 (by decide) (by decide) (Or.inr (by decide))).2.2
      (by decide) (by decide)⟩

/-! ## Claim C9: the batch driver is the element-wise solver -/

/-- Claim C9: for every input list, `solve_batch` produces one output slot per
input, in input order, and slot `i` holds exactly the hi/lo words and found flag
of `solve_erdos_straus ns[i]`, each element independent of the others. -/
theorem solve_batch_elementwise (ns : List Nat) :
    (solve_batch ns).length = ns.length ∧
      ∀ i : Nat, (solve_batch ns)[i]? =
        (ns[i]?).map (fun n => toSlot (solve_erdos_straus n)) := by
  induction ns with
  | nil => exact ⟨rfl, fun i => by simp [solve_batch]⟩
  | cons n rest ih =>
      refine ⟨by simpa [solve_batch] using ih.1, fun i => ?_⟩
      cases i with
      | zero => simp [solve_batch]
      | succ j => simpa [solve_batch] using ih.2 j
